import Mathlib

/-! # analyze-pt-stalk: parser, delta accumulator, file collector, aggregator, formatAvg

A shallow embedding of `main.go`.

Modelling conventions.

* A Go `string` holding UTF-8 text is a list of Unicode code points (`Str`).  The
  separators the program looks for (`|`, `+`, `_`) and its literal prefixes are
  ASCII, so searching, splitting and prefix tests agree byte-wise and code-point-wise,
  and the byte-wise order of Go's `<` on strings is the code-point-wise
  lexicographic order.
* A Go `int` is a 64-bit two's-complement integer: an `Int` that every arithmetic
  operation reduces with `wrapInt`.
* A Go `map[string]V` is an association list with pairwise distinct keys
  (`Table V`).  Reading is `mapGet`, writing is `mapSet`.  The order in which
  `range` visits a map and the way `sort.Slice` arranges equal elements are left to
  the `Runtime`.
* A `float64` is the rational number it denotes; conversions and division round to
  the nearest value with a 53-bit significand, ties to even (`roundF64`), and
  `fmt.Sprintf("%.nf", x)` rounds the exact value to `n` decimals (`formatFixed`).
* The file tree that `filepath.Walk` visits is an `FsNode`; a run that ends in
  `log.Fatalf` has no result (`none`).
-/

namespace PtStalk

/-! ## Strings -/

/-- A Go string, as its sequence of code points. -/
abbrev Str := List Char

/-- Go `strings.HasPrefix(s, pre)`. -/
def HasPrefix (s pre : Str) : Bool := pre.isPrefixOf s

/-- Go `strings.HasSuffix(s, suf)`. -/
def HasSuffix (s suf : Str) : Bool := suf.isSuffixOf s

/-- Go `strings.Index(s, sep)`: the position of the first occurrence of `sep` in `s`,
or `-1` when there is none. -/
def Index : Str → Str → Int
  | [], sep => if sep = [] then 0 else -1
  | c :: s, sep =>
    if sep.isPrefixOf (c :: s) then 0
    else
      match Index s sep with
      | Int.negSucc _ => -1
      | Int.ofNat m => Int.ofNat (m + 1)

/-- Go `strings.Contains(s, substr)`, which is `Index(s, substr) >= 0`. -/
def Contains (s substr : Str) : Bool := decide (0 ≤ Index s substr)

/-- Go `strings.Split(s, sep)` for a one-character separator: the pieces of `s`
between the occurrences of `sep`; there is always at least one piece. -/
def Split : Str → Char → List Str
  | [], _ => [[]]
  | c :: s, sep =>
    if c = sep then [] :: Split s sep
    else
      match Split s sep with
      | [] => [[c]]
      | p :: ps => (c :: p) :: ps

/-- Go `unicode.IsSpace`: the code points with the White_Space property. -/
def isSpace (c : Char) : Bool :=
  let n := c.toNat
  n = 0x09 || n = 0x0A || n = 0x0B || n = 0x0C || n = 0x0D || n = 0x20 ||
  n = 0x85 || n = 0xA0 || n = 0x1680 || (0x2000 ≤ n && n ≤ 0x200A) ||
  n = 0x2028 || n = 0x2029 || n = 0x202F || n = 0x205F || n = 0x3000

/-- Go `strings.TrimSpace`: drop the leading and the trailing white space. -/
def TrimSpace (s : Str) : Str :=
  ((s.dropWhile isSpace).reverse.dropWhile isSpace).reverse

/-! ## Machine integers -/

/-- Reduction of an integer to the 64-bit two's-complement range. -/
def wrapInt (x : Int) : Int := (x + 2 ^ 63) % 2 ^ 64 - 2 ^ 63

/-- The value of a decimal digit. -/
def digitVal (c : Char) : Nat := c.toNat - 48

/-- Whether a character is one of `0` .. `9`. -/
def isDigit (c : Char) : Bool := decide (48 ≤ c.toNat) && decide (c.toNat ≤ 57)

/-- The number written by a sequence of decimal digits. -/
def digitsVal (ds : Str) : Nat := ds.foldl (fun n c => n * 10 + digitVal c) 0

/-- Go `strconv.Atoi`: an optional sign followed by at least one decimal digit, the
value lying in the range of `int`; `none` stands for a non-nil error. -/
def Atoi (s : Str) : Option Int :=
  let neg : Bool := match s with
    | '-' :: _ => true
    | _ => false
  let ds : Str := match s with
    | '-' :: r => r
    | '+' :: r => r
    | _ => s
  if ds = [] then none
  else if !ds.all isDigit then none
  else
    let n : Int := if neg then -(digitsVal ds : Int) else (digitsVal ds : Int)
    if n < -(2 ^ 63) then none
    else if 2 ^ 63 - 1 < n then none
    else some n

/-! ## Maps -/

/-- A Go map keyed by strings: an association list. -/
abbrev Table (V : Type) := List (Str × V)

/-- The keys of a map are pairwise distinct. -/
def NodupKeys {V : Type} (t : Table V) : Prop := (t.map Prod.fst).Nodup

instance {V : Type} (t : Table V) : Decidable (NodupKeys t) :=
  inferInstanceAs (Decidable (t.map Prod.fst).Nodup)

/-- Reading `m[k]` with the comma-ok form: `none` when the key is absent. -/
def mapGet {V : Type} : Table V → Str → Option V
  | [], _ => none
  | (k, v) :: t, n => if k = n then some v else mapGet t n

/-- Writing `m[k] = v`. -/
def mapSet {V : Type} : Table V → Str → V → Table V
  | [], n, v => [(n, v)]
  | (k, w) :: t, n, v => if k = n then (k, v) :: t else (k, w) :: mapSet t n v

/-! ## processFile -/

/-- The two maps that `main` creates and hands to every call of `processFile`. -/
structure Tables where
  previousDataPoints : Table Int
  deltaMap : Table (List Int)
deriving DecidableEq

/-- The maps as `main` makes them. -/
def emptyTables : Tables := ⟨[], []⟩

/-- Lines 59-69 of `processFile`: the sample of one line, or `none` when the loop
body skips the line. -/
def parseLine (line : Str) : Option (Str × Int) :=
  if HasPrefix line "|".data && !Contains line "+".data then
    let parts := Split line '|'
    if parts.length < 3 then none
    else
      let name := TrimSpace (parts.getD 1 [])
      let valueStr := TrimSpace (parts.getD 2 [])
      match Atoi valueStr with
      | none => none
      | some value => some (name, value)
  else none

/-- Lines 71-81 of `processFile`: what one sample does to the two maps. -/
def accumulate (tb : Tables) (name : Str) (value : Int) : Tables :=
  let deltaMap :=
    if HasPrefix name "Threads_".data then
      mapSet tb.deltaMap name ((mapGet tb.deltaMap name).getD [] ++ [value])
    else
      match mapGet tb.previousDataPoints name with
      | some prevValue =>
        let delta := wrapInt (value - prevValue)
        mapSet tb.deltaMap name ((mapGet tb.deltaMap name).getD [] ++ [delta])
      | none => tb.deltaMap
  { previousDataPoints := mapSet tb.previousDataPoints name value, deltaMap := deltaMap }

/-- One iteration of the scanner loop of `processFile`. -/
def processLine (tb : Tables) (line : Str) : Tables :=
  match parseLine line with
  | none => tb
  | some (name, value) => accumulate tb name value

/-- The function `processFile`, on the lines the scanner yields. -/
def processFile (lines : List Str) (tb : Tables) : Tables :=
  lines.foldl processLine tb

/-- The walk of `main` (lines 97-110): the matched files, in walk order, each given
to `processFile` with the same two maps. -/
def processFiles (files : List (List Str)) (tb : Tables) : Tables :=
  files.foldl (fun acc lines => processFile lines acc) tb

/-- The samples of all data rows of the files, in processing order. -/
def samples (files : List (List Str)) : List (Str × Int) :=
  files.flatten.filterMap parseLine

/-- The number of valid data rows that carry `name`, across all files. -/
def occurrences (files : List (List Str)) (name : Str) : Nat :=
  ((samples files).filter (fun s => decide (s.1 = name))).length

/-- The raw values of the valid data rows that carry `name`, in processing order. -/
def rawValues (files : List (List Str)) (name : Str) : List Int :=
  ((samples files).filter (fun s => decide (s.1 = name))).map Prod.snd

/-- The accumulator step over a list of samples. -/
def accumulateAll (ss : List (Str × Int)) (tb : Tables) : Tables :=
  ss.foldl (fun acc s => accumulate acc s.1 s.2) tb

/-! ## float64 -/

/-- Rounding of a rational to the nearest integer, ties to the even one. -/
def roundHalfEven (q : ℚ) : ℤ :=
  let f : ℤ := Rat.floor q
  let r : ℚ := q - f
  if r < 1 / 2 then f
  else if 1 / 2 < r then f + 1
  else if f % 2 = 0 then f else f + 1

/-- The position of the leading bit, by halving at most `fuel` times. -/
def log2Fuel : Nat → Nat → Nat
  | 0, _ => 0
  | fuel + 1, n => if n < 2 then 0 else log2Fuel fuel (n / 2) + 1

/-- The position of the leading bit of a positive natural number. -/
def natLog2 (n : Nat) : Nat := log2Fuel n n

/-- The power of two with an integer exponent. -/
def pow2 (e : ℤ) : ℚ :=
  if 0 ≤ e then ((2 ^ e.toNat : ℕ) : ℚ) else 1 / ((2 ^ (-e).toNat : ℕ) : ℚ)

/-- The binary exponent of a non-zero rational: `2 ^ e ≤ |q| < 2 ^ (e + 1)`. -/
def binExp (q : ℚ) : ℤ :=
  let e : ℤ := (natLog2 q.num.natAbs : ℤ) - (natLog2 q.den : ℤ)
  if |q| < pow2 e then e - 1 else e

/-- The float64 nearest to a rational, ties to even: the rational is scaled so that
its integer part has 53 bits, rounded, and scaled back.  (Every value `main` forms
lies within the exponent range of float64: it is `0` or has a magnitude between
`2 ^ (-63)` and `2 ^ 63`.) -/
def roundF64 (q : ℚ) : ℚ :=
  if q = 0 then 0
  else
    let e : ℤ := binExp q - 52
    (roundHalfEven (q / pow2 e) : ℚ) * pow2 e

/-- Go's conversion `float64(n)` of an `int`. -/
def float64OfInt (n : Int) : ℚ := roundF64 n

/-- Go's `/` on two `float64` values, the divisor not being zero. -/
def float64Div (a b : ℚ) : ℚ := roundF64 (a / b)

/-! ## The aggregator -/

/-- The struct `DataPoint`. -/
structure DataPoint where
  Name : Str
  Values : List Int
  Max : Int
  Min : Int
  Avg : ℚ
deriving DecidableEq

/-- The struct `GroupedData`. -/
structure GroupedData where
  Prefix : Str
  DataPoints : List DataPoint
deriving DecidableEq

/-- Go's `<` on strings: lexicographic. -/
def strLess : Str → Str → Bool
  | [], [] => false
  | [], _ :: _ => true
  | _ :: _, [] => false
  | a :: as, b :: bs =>
    if a < b then true
    else if b < a then false
    else strLess as bs

/-- What `sort.Slice` asks of its `less`: a strict weak ordering. -/
def StrictWeak {α : Type} (less : α → α → Bool) : Prop :=
  (∀ a, less a a = false) ∧
  (∀ a b c, less a b = true → less b c = true → less a c = true) ∧
  (∀ a b c, less a b = false → less b c = false → less a c = false)

/-- What the program leaves to the Go runtime: the order in which `range` visits the
entries of a map, and the sorting routine behind `sort.Slice`, which is not stable.
All that is known of them is that `range` visits every entry once and that
`sort.Slice` permutes its slice into an order in which no element is less than an
earlier one. -/
structure Runtime where
  rangeOrder : {V : Type} → Table V → Table V
  rangeOrder_perm : ∀ {V : Type} (t : Table V), (rangeOrder t).Perm t
  sortSlice : {α : Type} → (α → α → Bool) → List α → List α
  sortSlice_perm : ∀ {α : Type} (less : α → α → Bool) (l : List α),
    (sortSlice less l).Perm l
  sortSlice_sorted : ∀ {α : Type} (less : α → α → Bool) (l : List α),
    StrictWeak less → (sortSlice less l).Pairwise (fun a b => less b a = false)

/-- Lines 118-124 of `main`: whether every value of a series is zero. -/
def allZero : List Int → Bool
  | [] => true
  | delta :: deltas => if delta ≠ 0 then false else allZero deltas

/-- Lines 126-137 of `main`: the group a variable name belongs to. -/
def groupPrefix (name : Str) : Str :=
  if HasPrefix name "Innodb_buffer_pool".data then "Innodb_buffer_pool".data
  else if HasPrefix name "Innodb".data then "Innodb".data
  else
    let idx := Index name "_".data
    if idx ≠ -1 then name.take idx.toNat else name

/-- Lines 138-147 of `main`: the loop that computes `max`, `min` and `sum`.  It starts
from `deltas[0]`, which exists because the series is not all zero. -/
def maxMinSum (deltas : List Int) : Int × Int × Int :=
  deltas.foldl
    (fun acc v =>
      (if v > acc.1 then v else acc.1,
       if v < acc.2.1 then v else acc.2.1,
       wrapInt (acc.2.2 + v)))
    (deltas.headD 0, deltas.headD 0, 0)

/-- Lines 138-149 of `main`: the `DataPoint` of a series that is not all zero. -/
def dataPointOf (name : Str) (deltas : List Int) : DataPoint :=
  let mms := maxMinSum deltas
  let avg := float64Div (float64OfInt mms.2.2) (float64OfInt deltas.length)
  { Name := name, Values := deltas, Max := mms.1, Min := mms.2.1, Avg := avg }

/-- Lines 117-150 of `main`: the body of the loop over `deltaMap`. -/
def addSeries (groupedData : Table (List DataPoint)) (entry : Str × List Int) :
    Table (List DataPoint) :=
  let name := entry.1
  let deltas := entry.2
  if allZero deltas then groupedData
  else
    let pfx := groupPrefix name
    mapSet groupedData pfx ((mapGet groupedData pfx).getD [] ++ [dataPointOf name deltas])

/-- The `less` of line 157: by `Name`. -/
def lessName (a b : DataPoint) : Bool := strLess a.Name b.Name

/-- The `less` of line 164: by `Prefix`. -/
def lessPrefix (a b : GroupedData) : Bool := strLess a.Prefix b.Prefix

/-- Lines 154-161 of `main`: the body of the loop over `groupedData`. -/
def addGroup (rt : Runtime) (sortedGroups : List GroupedData)
    (entry : Str × List DataPoint) : List GroupedData :=
  if entry.2.length > 0 then
    sortedGroups ++ [{ Prefix := entry.1, DataPoints := rt.sortSlice lessName entry.2 }]
  else sortedGroups

/-- Lines 116-151 of `main`: the map `groupedData` once the loop over `deltaMap` has
ended. -/
def groupedDataOf (rt : Runtime) (deltaMap : Table (List Int)) : Table (List DataPoint) :=
  (rt.rangeOrder deltaMap).foldl addSeries []

/-- Lines 116-165 of `main`: from the completed series table to the sorted groups. -/
def aggregate (rt : Runtime) (deltaMap : Table (List Int)) : List GroupedData :=
  let groupedData := groupedDataOf rt deltaMap
  let sortedGroups := (rt.rangeOrder groupedData).foldl (addGroup rt) []
  rt.sortSlice lessPrefix sortedGroups

/-- All the `DataPoint`s held by the map `groupedData`. -/
def allPoints (groupedData : Table (List DataPoint)) : List DataPoint :=
  (groupedData.map Prod.snd).flatten

/-- What the loop over `deltaMap` keeps true of `groupedData`: distinct keys, no empty
group, and every `DataPoint` filed under the group of its name. -/
def GroupInv (groupedData : Table (List DataPoint)) : Prop :=
  NodupKeys groupedData ∧
    ∀ e ∈ groupedData, e.2 ≠ [] ∧ ∀ dp ∈ e.2, groupPrefix dp.Name = e.1

/-- A runtime: `range` visits the entries in the order of the association list and
`sort.Slice` is an insertion sort. -/
def stdRuntime : Runtime where
  rangeOrder := fun t => t
  rangeOrder_perm := fun t => List.Perm.refl t
  sortSlice := fun less l => l.insertionSort (fun a b => less b a = false)
  sortSlice_perm := fun less l => List.perm_insertionSort _ l
  sortSlice_sorted := by
    intro α less l h
    obtain ⟨hirr, htr, hneg⟩ := h
    have htot : IsTotal α (fun a b => less b a = false) := by
      constructor
      intro a b
      cases hab : less a b with
      | false => exact Or.inr rfl
      | true =>
        left
        cases hba : less b a with
        | false => rfl
        | true =>
          have := htr a b a hab hba
          rw [hirr a] at this
          cases this
    have htrans : IsTrans α (fun a b => less b a = false) := by
      constructor
      intro a b c hab hbc
      exact hneg c b a hbc hab
    exact List.sorted_insertionSort (fun a b => less b a = false) l

/-- Every series of the table has at least one value. -/
def SeriesNonempty (t : Table (List Int)) : Prop := ∀ e ∈ t, e.2 ≠ []

/-- The deltas that the successive values of one counter produce, given the previous
value of the counter, if any. -/
def deltasFrom : Option Int → List Int → List Int
  | _, [] => []
  | none, v :: vs => deltasFrom (some v) vs
  | some p, v :: vs => wrapInt (v - p) :: deltasFrom (some v) vs

/-- The previous value left behind by the successive values of one counter. -/
def lastFrom : Option Int → List Int → Option Int
  | p, [] => p
  | _, v :: vs => lastFrom (some v) vs

/-! ## formatAvg -/

/-- The character of a decimal digit. -/
def digitChar (d : Nat) : Char :=
  match d with
  | 0 => '0'
  | 1 => '1'
  | 2 => '2'
  | 3 => '3'
  | 4 => '4'
  | 5 => '5'
  | 6 => '6'
  | 7 => '7'
  | 8 => '8'
  | _ => '9'

/-- The decimal digits of a natural number in front of `acc`, by dividing at most
`fuel` times. -/
def natDigitsFuel : Nat → Nat → Str → Str
  | 0, _, acc => acc
  | fuel + 1, n, acc =>
    if n < 10 then digitChar n :: acc
    else natDigitsFuel fuel (n / 10) (digitChar (n % 10) :: acc)

/-- The decimal numeral of a natural number. -/
def natToStr (n : Nat) : Str := natDigitsFuel (n + 1) n []

/-- The `p` low-order decimal digits of `m`, the most significant first. -/
def fixedDigits : Nat → Nat → Str
  | 0, _ => []
  | p + 1, m => fixedDigits p (m / 10) ++ [digitChar (m % 10)]

/-- Go `fmt.Sprintf("%.{prec}f", x)` for a finite `float64`: the exact value rounded
to `prec` decimal places, ties to even; a minus sign for a negative value, the integer
part, and, when `prec` is not zero, a point and `prec` digits. -/
def formatFixed (prec : Nat) (x : ℚ) : Str :=
  let m : Nat := (roundHalfEven (|x| * (10 : ℚ) ^ prec)).toNat
  let digits : Str :=
    natToStr (m / 10 ^ prec) ++
      (if prec = 0 then [] else '.' :: fixedDigits prec (m % 10 ^ prec))
  if x < 0 then '-' :: digits else digits

/-- The function `formatAvg`. -/
def formatAvg (avg : ℚ) : Str :=
  if avg ≥ 1000 then formatFixed 0 avg
  else if avg ≥ 100 then formatFixed 1 avg
  else if avg ≥ 10 then formatFixed 2 avg
  else formatFixed 3 avg

/-- The number of decimal places of a rendered number: the characters after the
point, none when there is no point. -/
def decimalPlaces (s : Str) : Nat :=
  match s.dropWhile (fun c => decide (c ≠ '.')) with
  | [] => 0
  | _ :: frac => frac.length

/-- The `float64` that a decimal constant of the source denotes. -/
def float64Const (q : ℚ) : ℚ := roundF64 q

/-! ## The file collector -/

mutual
/-- An entry of the file tree as `filepath.Walk` meets it: a non-directory with the
lines a scanner reads from it (`none` when it cannot be opened or read), an entry whose
`Lstat` fails, a directory whose names cannot be read, or a directory with its
entries. -/
inductive FsNode where
  | file (content : Option (List Str))
  | lstatError
  | dirError
  | dir (entries : FsForest)
/-- The entries of a directory with their names, in the order in which the directory
holds them, which is any order. -/
inductive FsForest where
  | nil
  | cons (name : Str) (node : FsNode) (rest : FsForest)
end

/-- Go `filepath.Join(path, name)` for an entry of the directory `path`. -/
def Join (path name : Str) : Str := path ++ '/' :: name

mutual
/-- The function `walk` of `filepath.Walk` with the callback of `main`, from the entry
at `path`, on a tree whose directories hold their entries as `readDirNames` returned
them.  `none` stands for the run ended by `log.Fatalf`: the callback returns the error
it is given, `Walk` stops and returns it, and `processFile` ends the run itself when it
cannot open or read its file. -/
def walk (path : Str) : FsNode → Tables → Option Tables
  | .file content, tb =>
    if HasSuffix path "-mysqladmin".data then
      match content with
      | none => none
      | some lines => some (processFile lines tb)
    else some tb
  | .lstatError, _ => none
  | .dirError, _ => none
  | .dir entries, tb => walkEntries path entries tb
/-- The loop of `filepath.Walk` over the names of the directory `path`. -/
def walkEntries (path : Str) : FsForest → Tables → Option Tables
  | .nil, tb => some tb
  | .cons name node rest, tb =>
    match walk (Join path name) node tb with
    | none => none
    | some tb' => walkEntries path rest tb'
end

mutual
/-- All entries of a tree with their paths in depth-first order: a directory, then
its entries one after the other, each with all that lies below it. -/
def listing (path : Str) : FsNode → List (Str × FsNode)
  | .dir entries => (path, .dir entries) :: listingEntries path entries
  | .file content => [(path, .file content)]
  | .lstatError => [(path, .lstatError)]
  | .dirError => [(path, .dirError)]
/-- The depth-first listing of the entries of the directory `path`. -/
def listingEntries (path : Str) : FsForest → List (Str × FsNode)
  | .nil => []
  | .cons name node rest => listing (Join path name) node ++ listingEntries path rest
end

/-- Whether the callback of `main`, or `processFile`, ends the run at an entry: the
entry cannot be examined, or it is a directory that cannot be read, or it is a matched
file that cannot be opened or read. -/
def isFault (e : Str × FsNode) : Bool :=
  match e.2 with
  | .lstatError => true
  | .dirError => true
  | .file none => HasSuffix e.1 "-mysqladmin".data
  | _ => false

/-- The lines of an entry that `main` hands to `processFile`: a non-directory whose
path ends with `-mysqladmin`. -/
def matchedLines (e : Str × FsNode) : Option (List Str) :=
  match e.2 with
  | .file (some lines) => if HasSuffix e.1 "-mysqladmin".data then some lines else none
  | _ => none

/-- The callback of `main` over a sequence of entries, up to the first fault. -/
def runEntries : List (Str × FsNode) → Tables → Option Tables
  | [], tb => some tb
  | e :: es, tb =>
    if isFault e then none
    else
      match matchedLines e with
      | some lines => runEntries es (processFile lines tb)
      | none => runEntries es tb

/-- The entries of a directory as a list. -/
def entriesToList : FsForest → List (Str × FsNode)
  | .nil => []
  | .cons name node rest => (name, node) :: entriesToList rest

/-- The directory with the entries of a list, in the order of the list. -/
def entriesOfList : List (Str × FsNode) → FsForest
  | [] => .nil
  | (name, node) :: rest => .cons name node (entriesOfList rest)

/-- The order of `sort.Strings` on the names of entries: `a` may stand before `b` when
`b`'s name is not less than `a`'s. -/
def nameLe (a b : Str × FsNode) : Prop := strLess b.1 a.1 = false

instance : DecidableRel nameLe := fun a b =>
  inferInstanceAs (Decidable (strLess b.1 a.1 = false))

/-- Go `readDirNames`: the entries of a directory, sorted by name. -/
def readDirNames (entries : FsForest) : FsForest :=
  entriesOfList ((entriesToList entries).insertionSort nameLe)

mutual
/-- The tree as `filepath.Walk` walks it: every directory with its entries in the
order in which `readDirNames` returns them. -/
def sortTree : FsNode → FsNode
  | .dir entries => .dir (readDirNames (sortBelow entries))
  | .file content => .file content
  | .lstatError => .lstatError
  | .dirError => .dirError
/-- The entries of a directory, each with all directories below it sorted. -/
def sortBelow : FsForest → FsForest
  | .nil => .nil
  | .cons name node rest => .cons name (sortTree node) (sortBelow rest)
end

/-- Lines 101-114 of `main`: `filepath.Walk(rootDir, ...)` with the callback of `main`
on the tree found at `root`.  `Walk` reads the names of every directory it reaches
with `readDirNames` and visits them in that order. -/
def Walk (root : Str) (tree : FsNode) (tb : Tables) : Option Tables :=
  walk root (sortTree tree) tb

mutual
/-- Every directory of the tree lists its entries in ascending lexical order of their
names. -/
def LexOrdered : FsNode → Prop
  | .dir entries =>
    ((entriesToList entries).map Prod.fst).Pairwise (fun a b => strLess b a = false) ∧
      LexOrderedEntries entries
  | .file _ => True
  | .lstatError => True
  | .dirError => True
/-- Every entry of the directory is `LexOrdered`. -/
def LexOrderedEntries : FsForest → Prop
  | .nil => True
  | .cons _ node rest => LexOrdered node ∧ LexOrderedEntries rest
end

/-- Whether an entry is a directory whose entries were read. -/
def hasEntries : FsNode → Bool
  | .dir _ => true
  | _ => false

/-- The entries of a listing other than the directories that were read: the
non-directories and the entries at which an error is reported. -/
def leaves (l : List (Str × FsNode)) : List (Str × FsNode) :=
  l.filter (fun e => !hasEntries e.2)

/-! ## Maps: reading after writing -/

theorem mapGet_mapSet {V : Type} (t : Table V) (n : Str) (v : V) (m : Str) :
    mapGet (mapSet t n v) m = if m = n then some v else mapGet t m := by
  induction t with
  | nil =>
    by_cases h : m = n
    · simp [mapSet, mapGet, h]
    · have h' : ¬ n = m := fun e => h e.symm
      simp [mapSet, mapGet, h, h']
  | cons kv t ih =>
    obtain ⟨k, w⟩ := kv
    by_cases hk : k = n
    · subst hk
      by_cases h : m = k
      · simp [mapSet, mapGet, h]
      · have h' : ¬ k = m := fun e => h e.symm
        simp [mapSet, mapGet, h, h']
    · by_cases hm : k = m
      · subst hm
        simp [mapSet, mapGet, hk]
      · simp [mapSet, mapGet, hk, hm, ih]

theorem mapGet_mapSet_self {V : Type} (t : Table V) (n : Str) (v : V) :
    mapGet (mapSet t n v) n = some v := by
  simp [mapGet_mapSet]

theorem mapGet_mapSet_of_ne {V : Type} (t : Table V) (n : Str) (v : V) (m : Str)
    (h : m ≠ n) : mapGet (mapSet t n v) m = mapGet t m := by
  simp [mapGet_mapSet, h]

theorem hasPrefix_iff (s pre : Str) : HasPrefix s pre = true ↔ pre <+: s := by
  simp [HasPrefix]

/-! ## The parser -/
theorem index_single_nonneg (s : Str) (c : Char) : 0 ≤ Index s [c] ↔ c ∈ s := by
  induction s with
  | nil => simp [Index]
  | cons d s ih =>
    by_cases h : c = d
    · subst h
      simp [Index, List.isPrefixOf]
    · have h' : ¬ d = c := fun e => h e.symm
      have hb : (c == d) = false := by simp [h]
      simp only [Index, List.isPrefixOf, hb, Bool.false_and, Bool.false_eq_true, if_false,
        List.mem_cons, h, false_or]
      rw [← ih]
      cases hI : Index s [c] with
      | ofNat m =>
        simp only [Int.ofNat_eq_coe]
        constructor <;> intro _ <;> omega
      | negSucc m => simp

theorem contains_single (s : Str) (c : Char) : Contains s [c] = true ↔ c ∈ s := by
  simp [Contains, index_single_nonneg]

theorem hasPrefix_single (s : Str) (c : Char) :
    HasPrefix s [c] = true ↔ ∃ rest, s = c :: rest := by
  cases s with
  | nil => simp [HasPrefix, List.isPrefixOf]
  | cons d s =>
    simp [HasPrefix, List.isPrefixOf]
    exact eq_comm

theorem parseLine_iff (line name : Str) (value : Int) :
    parseLine line = some (name, value) ↔
      (∃ rest, line = '|' :: rest) ∧ '+' ∉ line ∧ 3 ≤ (Split line '|').length ∧
        name = TrimSpace ((Split line '|').getD 1 []) ∧
        Atoi (TrimSpace ((Split line '|').getD 2 [])) = some value := by
  have e1 : "|".data = ['|'] := rfl
  have e2 : "+".data = ['+'] := rfl
  unfold parseLine
  rw [e1, e2]
  by_cases h1 : HasPrefix line ['|'] = true
  · by_cases h2 : Contains line ['+'] = true
    · have h2' := (contains_single _ _).1 h2
      simp [h1, h2, h2']
    · have h2' : '+' ∉ line := fun h => h2 ((contains_single _ _).2 h)
      have h1' := (hasPrefix_single _ _).1 h1
      by_cases h3 : (Split line '|').length < 3
      · have : ¬ 3 ≤ (Split line '|').length := by omega
        simp [h1, h2, h3, this]
      · have h3' : 3 ≤ (Split line '|').length := by omega
        simp only [h1, h2, h3, h1', h2', h3']
        cases hB : Atoi (TrimSpace ((Split line '|').getD 2 [])) <;>
        simp [eq_comm]
  · have h1' : ¬ ∃ rest, line = '|' :: rest := fun h => h1 ((hasPrefix_single _ _).2 h)
    simp [h1, h1']


theorem split_ne_nil (s : Str) (sep : Char) : Split s sep ≠ [] := by
  induction s with
  | nil => simp [Split]
  | cons c s ih =>
    unfold Split
    by_cases h : c = sep
    · simp [h]
    · simp only [h, if_false]
      cases hS : Split s sep <;> simp

theorem split_append (a b : Str) (sep : Char) :
    Split (a ++ sep :: b) sep = Split a sep ++ Split b sep := by
  induction a with
  | nil => simp [Split]
  | cons c a ih =>
    by_cases h : c = sep
    · simp [Split, h, ih]
    · simp only [List.cons_append, Split, h, if_false]
      have ih' : Split (a.append (sep :: b)) sep = Split a sep ++ Split b sep := ih
      rw [ih']
      cases hS : Split a sep with
      | nil => exact absurd hS (split_ne_nil a sep)
      | cons p ps => simp

theorem getD_append_left {α : Type} (l r : List α) (i : Nat) (d : α) (h : i < l.length) :
    (l ++ r).getD i d = l.getD i d := by
  simp [List.getD, List.getElem?_append_left h]

theorem parseLine_extra (line extra : Str) (hx : '+' ∉ extra)
    (h3 : 3 ≤ (Split line '|').length) :
    parseLine (line ++ '|' :: extra) = parseLine line := by
  have e1 : "|".data = ['|'] := rfl
  have e2 : "+".data = ['+'] := rfl
  have hne : line ≠ [] := by
    rintro rfl
    simp [Split] at h3
  obtain ⟨c, l, rfl⟩ := List.exists_cons_of_ne_nil hne
  have hp : HasPrefix (c :: l ++ '|' :: extra) ['|'] = HasPrefix (c :: l) ['|'] := by
    simp [HasPrefix, List.isPrefixOf]
  have hc : Contains (c :: l ++ '|' :: extra) ['+'] = Contains (c :: l) ['+'] := by
    rw [Bool.eq_iff_iff, contains_single, contains_single]
    simp [hx]
  have hl : ¬ (Split (c :: l) '|' ++ Split extra '|').length < 3 := by
    simp only [List.length_append]; omega
  have hl' : ¬ (Split (c :: l) '|').length < 3 := by omega
  unfold parseLine
  rw [e1, e2, hp, hc, split_append]
  simp only [hl, hl', if_false]
  rw [getD_append_left _ _ 1 _ (by omega), getD_append_left _ _ 2 _ (by omega)]

theorem processLine_skip (tb : Tables) (line : Str) (h : parseLine line = none) :
    processLine tb line = tb := by
  simp [processLine, h]

theorem parseLine_none_of_malformed (line : Str)
    (h : (¬ ∃ rest, line = '|' :: rest) ∨ '+' ∈ line ∨ (Split line '|').length < 3 ∨
      Atoi (TrimSpace ((Split line '|').getD 2 [])) = none) :
    parseLine line = none := by
  cases hp : parseLine line with
  | none => rfl
  | some nv =>
    obtain ⟨name, value⟩ := nv
    obtain ⟨h1, h2, h3, _, h5⟩ := (parseLine_iff line name value).1 hp
    rcases h with h | h | h | h
    · exact absurd h1 h
    · exact absurd h h2
    · omega
    · rw [h] at h5; cases h5

/-! ## Machine integers: wrapping -/

theorem wrapInt_idem (a : Int) : wrapInt (wrapInt a) = wrapInt a := by
  unfold wrapInt
  omega

theorem wrapInt_add_left (a b : Int) : wrapInt (wrapInt a + b) = wrapInt (a + b) := by
  unfold wrapInt
  omega

theorem wrapInt_of_range (a : Int) (h1 : -(2 ^ 63) ≤ a) (h2 : a < 2 ^ 63) :
    wrapInt a = a := by
  unfold wrapInt
  omega

/-! ## The accumulator step -/

/-- C1: the delta accumulator step (lines 71-79).  After the step the series of
`name` is the old series with `value` appended when `name` begins with `Threads_`;
otherwise, when the previous-value table holds `p` for `name`, it is the old series
with `value - p` appended, the subtraction being Go's on `int`, which is the exact
difference whenever that fits into 64 bits; otherwise the whole series table is
untouched.  The series of every other name is the old one. -/
theorem accumulator_step_series (tb : Tables) (name : Str) (value : Int) :
    (∀ n : Str, n ≠ name →
        mapGet (accumulate tb name value).deltaMap n = mapGet tb.deltaMap n) ∧
    mapGet (accumulate tb name value).deltaMap name =
      (if "Threads_".data <+: name then
        some ((mapGet tb.deltaMap name).getD [] ++ [value])
      else
        match mapGet tb.previousDataPoints name with
        | some p => some ((mapGet tb.deltaMap name).getD [] ++ [wrapInt (value - p)])
        | none => mapGet tb.deltaMap name) ∧
    ((¬ "Threads_".data <+: name ∧ mapGet tb.previousDataPoints name = none) →
        (accumulate tb name value).deltaMap = tb.deltaMap) ∧
    (∀ p : Int, -(2 ^ 63) ≤ value - p → value - p < 2 ^ 63 →
        wrapInt (value - p) = value - p) := by
  refine ⟨?_, ?_, ?_, fun p h1 h2 => wrapInt_of_range _ h1 h2⟩
  · intro n hn
    unfold accumulate
    by_cases hp : HasPrefix name "Threads_".data = true
    · simp [hp, mapGet_mapSet, hn]
    · cases hq : mapGet tb.previousDataPoints name with
      | none => simp [hp]
      | some p => simp [hp, mapGet_mapSet, hn]
  · unfold accumulate
    by_cases hp : HasPrefix name "Threads_".data = true
    · have hp' := (hasPrefix_iff _ _).1 hp
      simp [hp, hp', mapGet_mapSet]
    · have hp' : ¬ "Threads_".data <+: name := fun h => hp ((hasPrefix_iff _ _).2 h)
      cases hq : mapGet tb.previousDataPoints name with
      | none => simp [hp, hp']
      | some p => simp [hp, hp', mapGet_mapSet]
  · rintro ⟨hp, hq⟩
    have hp' : ¬ HasPrefix name "Threads_".data = true :=
      fun h => hp ((hasPrefix_iff _ _).1 h)
    unfold accumulate
    simp [hp', hq]

/-- C5: after the accumulator step the previous-value table is the old table with
`name` mapped to `value`, whatever branch the step took; no other name changes. -/
theorem accumulator_step_previous (tb : Tables) (name : Str) (value : Int) (n : Str) :
    mapGet (accumulate tb name value).previousDataPoints n =
      if n = name then some value else mapGet tb.previousDataPoints n := by
  unfold accumulate
  simp [mapGet_mapSet]

/-! ## Files as sample lists -/

theorem processFile_eq_accumulateAll (lines : List Str) (tb : Tables) :
    processFile lines tb = accumulateAll (lines.filterMap parseLine) tb := by
  induction lines generalizing tb with
  | nil => rfl
  | cons l ls ih =>
    simp only [processFile, List.foldl_cons] at ih ⊢
    rw [ih]
    cases hp : parseLine l with
    | none => simp [processLine, hp, List.filterMap_cons]
    | some nv => simp [processLine, hp, List.filterMap_cons, accumulateAll]

theorem processFiles_eq_processFile (files : List (List Str)) (tb : Tables) :
    processFiles files tb = processFile files.flatten tb := by
  induction files generalizing tb with
  | nil => rfl
  | cons f fs ih =>
    simp only [processFiles, List.foldl_cons, List.flatten_cons] at ih ⊢
    rw [ih]
    simp [processFile, List.foldl_append]

theorem processFiles_eq_accumulateAll (files : List (List Str)) (tb : Tables) :
    processFiles files tb = accumulateAll (samples files) tb := by
  rw [processFiles_eq_processFile, processFile_eq_accumulateAll, samples]

/-! ## The parser and the skipped lines -/

/-- C2: the snapshot parser (lines 56-69).  A line yields the sample `(name, value)`
exactly when it begins with `|`, contains no `+`, splits on `|` into at least three
parts, `name` is the trimmed part of index 1 and `strconv.Atoi` reads `value` from the
trimmed part of index 2.  Parts beyond the third play no role: further fields appended
to a line of at least three parts leave the result as it is. -/
theorem parseLine_contract (line : Str) :
    (∀ (name : Str) (value : Int),
      parseLine line = some (name, value) ↔
        (∃ rest, line = '|' :: rest) ∧ '+' ∉ line ∧ 3 ≤ (Split line '|').length ∧
          name = TrimSpace ((Split line '|').getD 1 []) ∧
          Atoi (TrimSpace ((Split line '|').getD 2 [])) = some value) ∧
    (∀ extra : Str, '+' ∉ extra → 3 ≤ (Split line '|').length →
      parseLine (line ++ '|' :: extra) = parseLine line) :=
  ⟨fun name value => parseLine_iff line name value,
   fun extra hx h3 => parseLine_extra line extra hx h3⟩

/-- C6: a malformed line (one that does not begin with `|`, or contains `+`, or splits
into fewer than three parts, or whose trimmed third part `strconv.Atoi` rejects)
leaves both maps as they are, and the scanner loop goes on with the following
lines. -/
theorem malformed_line_skipped (tb : Tables) (line : Str) (rest : List Str)
    (h : (¬ ∃ r, line = '|' :: r) ∨ '+' ∈ line ∨ (Split line '|').length < 3 ∨
      Atoi (TrimSpace ((Split line '|').getD 2 [])) = none) :
    processLine tb line = tb ∧
      processFile (line :: rest) tb = processFile rest tb := by
  have hs : processLine tb line = tb :=
    processLine_skip tb line (parseLine_none_of_malformed line h)
  refine ⟨hs, ?_⟩
  simp [processFile, hs]

/-- Witness of C6: a row whose value field is not a number. -/
theorem malformed_line_skipped_witness :
    processLine ⟨[("Uptime".data, 7)], []⟩ "| Uptime | n/a |".data =
        ⟨[("Uptime".data, 7)], []⟩ ∧
      processFile ["| Uptime | n/a |".data, "| Uptime | 9 |".data]
          ⟨[("Uptime".data, 7)], []⟩ =
        processFile ["| Uptime | 9 |".data] ⟨[("Uptime".data, 7)], []⟩ :=
  malformed_line_skipped ⟨[("Uptime".data, 7)], []⟩ "| Uptime | n/a |".data
    ["| Uptime | 9 |".data] (Or.inr (Or.inr (Or.inr (by decide))))

/-! ## Series lengths -/

theorem accumulate_deltaMap_of_ne (tb : Tables) (name : Str) (value : Int) (n : Str)
    (hn : n ≠ name) :
    mapGet (accumulate tb name value).deltaMap n = mapGet tb.deltaMap n := by
  unfold accumulate
  by_cases hp : HasPrefix name "Threads_".data = true
  · simp [hp, mapGet_mapSet, hn]
  · cases hq : mapGet tb.previousDataPoints name with
    | none => simp [hp]
    | some p => simp [hp, mapGet_mapSet, hn]

theorem accumulate_prev (tb : Tables) (name : Str) (value : Int) (n : Str) :
    mapGet (accumulate tb name value).previousDataPoints n =
      if n = name then some value else mapGet tb.previousDataPoints n := by
  unfold accumulate
  simp [mapGet_mapSet]

theorem accumulate_threads (tb : Tables) (name : Str) (value : Int)
    (hp : HasPrefix name "Threads_".data = true) :
    mapGet (accumulate tb name value).deltaMap name =
      some ((mapGet tb.deltaMap name).getD [] ++ [value]) := by
  unfold accumulate
  simp [hp, mapGet_mapSet]

theorem accumulate_counter_some (tb : Tables) (name : Str) (value p : Int)
    (hp : ¬ HasPrefix name "Threads_".data = true)
    (hq : mapGet tb.previousDataPoints name = some p) :
    mapGet (accumulate tb name value).deltaMap name =
      some ((mapGet tb.deltaMap name).getD [] ++ [wrapInt (value - p)]) := by
  unfold accumulate
  simp [hp, hq, mapGet_mapSet]

theorem accumulate_counter_none (tb : Tables) (name : Str) (value : Int)
    (hp : ¬ HasPrefix name "Threads_".data = true)
    (hq : mapGet tb.previousDataPoints name = none) :
    (accumulate tb name value).deltaMap = tb.deltaMap := by
  unfold accumulate
  simp [hp, hq]

/-- The series of a `Threads_` name after a list of samples. -/
theorem accumulateAll_threads (name : Str) (hp : HasPrefix name "Threads_".data = true)
    (ss : List (Str × Int)) (tb : Tables) :
    (mapGet (accumulateAll ss tb).deltaMap name).getD [] =
      (mapGet tb.deltaMap name).getD [] ++
        (ss.filter (fun s => decide (s.1 = name))).map Prod.snd := by
  induction ss generalizing tb with
  | nil => simp [accumulateAll]
  | cons s ss ih =>
    obtain ⟨n, v⟩ := s
    have hstep : accumulateAll ((n, v) :: ss) tb = accumulateAll ss (accumulate tb n v) := rfl
    rw [hstep, ih]
    by_cases hn : n = name
    · subst hn
      simp [accumulate_threads tb n v hp]
    · have hn' : name ≠ n := fun e => hn e.symm
      simp [accumulate_deltaMap_of_ne tb n v name hn', hn]

/-- The series of a counter name after a list of samples: its length grows by the
number of occurrences, less one when the name had no previous value. -/
theorem accumulateAll_counter (name : Str) (hp : ¬ HasPrefix name "Threads_".data = true)
    (ss : List (Str × Int)) (tb : Tables) :
    ((mapGet (accumulateAll ss tb).deltaMap name).getD []).length =
        ((mapGet tb.deltaMap name).getD []).length +
          (if (mapGet tb.previousDataPoints name).isSome
            then (ss.filter (fun s => decide (s.1 = name))).length
            else (ss.filter (fun s => decide (s.1 = name))).length - 1) ∧
      (mapGet tb.deltaMap name = none →
        (if (mapGet tb.previousDataPoints name).isSome
            then (ss.filter (fun s => decide (s.1 = name))).length = 0
            else (ss.filter (fun s => decide (s.1 = name))).length ≤ 1) →
        mapGet (accumulateAll ss tb).deltaMap name = none) := by
  induction ss generalizing tb with
  | nil => simp [accumulateAll]
  | cons s ss ih =>
    obtain ⟨n, v⟩ := s
    have hstep : accumulateAll ((n, v) :: ss) tb = accumulateAll ss (accumulate tb n v) := rfl
    rw [hstep]
    obtain ⟨ih1, ih2⟩ := ih (accumulate tb n v)
    by_cases hn : n = name
    · subst hn
      have hprev : mapGet (accumulate tb n v).previousDataPoints n = some v := by
        simp [accumulate_prev]
      cases hq : mapGet tb.previousDataPoints n with
      | none =>
        have hd := accumulate_counter_none tb n v hp hq
        rw [hprev, hd] at ih1 ih2
        refine ⟨?_, ?_⟩
        · rw [ih1]; simp
        · intro h0 hc
          apply ih2 h0
          simpa using hc
      | some p =>
        have hd := accumulate_counter_some tb n v p hp hq
        rw [hprev, hd] at ih1
        refine ⟨?_, ?_⟩
        · rw [ih1]; simp; omega
        · intro _ hc
          simp at hc
    · have hn' : name ≠ n := fun e => hn e.symm
      have hd := accumulate_deltaMap_of_ne tb n v name hn'
      have hprev : mapGet (accumulate tb n v).previousDataPoints name =
          mapGet tb.previousDataPoints name := by
        simp [accumulate_prev, hn']
      rw [hprev, hd] at ih1 ih2
      refine ⟨?_, ?_⟩
      · rw [ih1]; simp [hn]
      · intro h0 hc
        apply ih2 h0
        simpa [hn] using hc

/-- C3: for files processed in order from empty maps and a name that does not begin
with `Threads_` and occurs in at least one valid data row, the series of the name has
one value less than the name has valid data rows (stated as `length + 1 = rows`, the
subtraction being exact); a name with exactly one such row has no series at all. -/
theorem counter_series_length (files : List (List Str)) (name : Str)
    (hT : ¬ "Threads_".data <+: name) (hocc : 1 ≤ occurrences files name) :
    ((mapGet (processFiles files emptyTables).deltaMap name).getD []).length + 1 =
        occurrences files name ∧
      (occurrences files name = 1 →
        mapGet (processFiles files emptyTables).deltaMap name = none) := by
  have hp : ¬ HasPrefix name "Threads_".data = true :=
    fun h => hT ((hasPrefix_iff _ _).1 h)
  obtain ⟨h1, h2⟩ := accumulateAll_counter name hp (samples files) emptyTables
  rw [processFiles_eq_accumulateAll]
  refine ⟨?_, ?_⟩
  · rw [h1]
    unfold occurrences at hocc
    simp [emptyTables, mapGet, occurrences]
    omega
  · intro h
    apply h2
    · simp [emptyTables, mapGet]
    · have : (mapGet emptyTables.previousDataPoints name).isSome = false := by
        simp [emptyTables, mapGet]
      simp only [this, Bool.false_eq_true, if_false]
      unfold occurrences at h
      omega

/-- Witness of C3: `Uptime` occurs twice in two files. -/
theorem counter_series_length_witness :
    ((mapGet (processFiles [["| Uptime | 5 |".data], ["| Uptime | 9 |".data]]
          emptyTables).deltaMap "Uptime".data).getD []).length + 1 =
        occurrences [["| Uptime | 5 |".data], ["| Uptime | 9 |".data]] "Uptime".data ∧
      (occurrences [["| Uptime | 5 |".data], ["| Uptime | 9 |".data]] "Uptime".data = 1 →
        mapGet (processFiles [["| Uptime | 5 |".data], ["| Uptime | 9 |".data]]
          emptyTables).deltaMap "Uptime".data = none) :=
  counter_series_length [["| Uptime | 5 |".data], ["| Uptime | 9 |".data]] "Uptime".data
    (by decide) (by decide)

/-- C4: for files processed in order from empty maps and a name beginning with
`Threads_`, the series of the name is the list of the raw values of the valid data
rows with that name, in order; in particular it has as many values as there are such
rows. -/
theorem threads_series_raw (files : List (List Str)) (name : Str)
    (hT : "Threads_".data <+: name) :
    (mapGet (processFiles files emptyTables).deltaMap name).getD [] =
        rawValues files name ∧
      ((mapGet (processFiles files emptyTables).deltaMap name).getD []).length =
        occurrences files name := by
  have hp : HasPrefix name "Threads_".data = true := (hasPrefix_iff _ _).2 hT
  have h := accumulateAll_threads name hp (samples files) emptyTables
  rw [processFiles_eq_accumulateAll]
  have h' : (mapGet (accumulateAll (samples files) emptyTables).deltaMap name).getD [] =
      rawValues files name := by
    rw [h]
    simp [emptyTables, mapGet, rawValues]
  refine ⟨h', ?_⟩
  rw [h']
  simp [rawValues, occurrences]

/-- Witness of C4: `Threads_running` in two files. -/
theorem threads_series_raw_witness :
    (mapGet (processFiles
          [["| Threads_running | 3 |".data], ["| Threads_running | 4 |".data]]
          emptyTables).deltaMap "Threads_running".data).getD [] =
        rawValues [["| Threads_running | 3 |".data], ["| Threads_running | 4 |".data]]
          "Threads_running".data ∧
      ((mapGet (processFiles
          [["| Threads_running | 3 |".data], ["| Threads_running | 4 |".data]]
          emptyTables).deltaMap "Threads_running".data).getD []).length =
        occurrences [["| Threads_running | 3 |".data], ["| Threads_running | 4 |".data]]
          "Threads_running".data :=
  threads_series_raw [["| Threads_running | 3 |".data], ["| Threads_running | 4 |".data]]
    "Threads_running".data (by decide)

/-! ## Prefix classification -/

theorem index_single_eq (s : Str) (c : Char) :
    Index s [c] = if c ∈ s then ((s.takeWhile (fun d => decide (d ≠ c))).length : Int) else -1 := by
  induction s with
  | nil => simp [Index]
  | cons d s ih =>
    by_cases h : c = d
    · subst h
      simp [Index, List.isPrefixOf, List.takeWhile]
    · have h' : ¬ d = c := fun e => h e.symm
      have hb : (c == d) = false := by simp [h]
      simp only [Index, List.isPrefixOf, hb, Bool.false_and, Bool.false_eq_true, if_false,
        List.mem_cons, h, false_or]
      rw [ih]
      by_cases hm : c ∈ s
      · simp [hm, List.takeWhile, h']
      · simp [hm]
        rfl

theorem take_takeWhile_length (s : Str) (p : Char → Bool) :
    s.take (s.takeWhile p).length = s.takeWhile p := by
  induction s with
  | nil => simp
  | cons d s ih =>
    by_cases h : p d = true
    · simp [List.takeWhile, h, ih]
    · simp [List.takeWhile, h]

theorem groupPrefix_eq (name : Str) :
    groupPrefix name =
      if "Innodb_buffer_pool".data <+: name then "Innodb_buffer_pool".data
      else if "Innodb".data <+: name then "Innodb".data
      else if '_' ∈ name then name.takeWhile (fun d => decide (d ≠ '_'))
      else name := by
  have e : "_".data = ['_'] := rfl
  unfold groupPrefix
  simp only [hasPrefix_iff, e, index_single_eq]
  by_cases h1 : "Innodb_buffer_pool".data <+: name
  · simp [h1]
  · by_cases h2 : "Innodb".data <+: name
    · simp [h1, h2]
    · by_cases h3 : '_' ∈ name
      · simp only [h1, h2, h3, if_true, if_false]
        have : ((List.takeWhile (fun d => decide (d ≠ '_')) name).length : Int) ≠ -1 := by omega
        simp only [this, ne_eq, not_false_eq_true, if_true, Int.toNat_ofNat]
        exact take_takeWhile_length _ _
      · simp [h1, h2, h3]

/-- C8: prefix classification (lines 126-137).  The group of a name is
`Innodb_buffer_pool` when the name starts with it; else `Innodb` when the name starts
with that; else the part before the first `_` when the name has one; else the whole
name.  The five examples of the specification follow, and a name starting with
`Innodb_buffer_pool` is never put into the group `Innodb`. -/
theorem groupPrefix_classification (name : Str) :
    groupPrefix name =
        (if "Innodb_buffer_pool".data <+: name then "Innodb_buffer_pool".data
        else if "Innodb".data <+: name then "Innodb".data
        else if '_' ∈ name then name.takeWhile (fun d => decide (d ≠ '_'))
        else name) ∧
      groupPrefix "Innodb_buffer_pool_pages_total".data = "Innodb_buffer_pool".data ∧
      groupPrefix "Innodb_rows_read".data = "Innodb".data ∧
      groupPrefix "Threads_connected".data = "Threads".data ∧
      groupPrefix "Bytes_received".data = "Bytes".data ∧
      groupPrefix "Uptime".data = "Uptime".data ∧
      ("Innodb_buffer_pool".data <+: name → groupPrefix name ≠ "Innodb".data) := by
  refine ⟨groupPrefix_eq name, by decide, by decide, by decide, by decide, by decide, ?_⟩
  intro h
  rw [groupPrefix_eq, if_pos h]
  decide

/-! ## The aggregator: structure of the output -/

theorem mapGet_some_mem {V : Type} (t : Table V) (k : Str) (v : V)
    (h : mapGet t k = some v) : (k, v) ∈ t := by
  induction t with
  | nil => simp [mapGet] at h
  | cons e t ih =>
    obtain ⟨k', w⟩ := e
    by_cases hk : k' = k
    · subst hk
      simp [mapGet] at h
      simp [h]
    · simp [mapGet, hk] at h
      exact List.mem_cons_of_mem _ (ih h)

theorem mem_mapSet {V : Type} (t : Table V) (k : Str) (v : V) (e : Str × V)
    (h : e ∈ mapSet t k v) : e = (k, v) ∨ e ∈ t := by
  induction t with
  | nil => simp [mapSet] at h; exact Or.inl h
  | cons e' t ih =>
    obtain ⟨k', w⟩ := e'
    by_cases hk : k' = k
    · subst hk
      simp [mapSet] at h
      rcases h with h | h
      · exact Or.inl h
      · exact Or.inr (List.mem_cons_of_mem _ h)
    · simp [mapSet, hk] at h
      rcases h with h | h
      · exact Or.inr (by simp [h])
      · rcases ih h with h | h
        · exact Or.inl h
        · exact Or.inr (List.mem_cons_of_mem _ h)

theorem keys_mapSet {V : Type} (t : Table V) (k : Str) (v : V) :
    (mapSet t k v).map Prod.fst =
      if k ∈ t.map Prod.fst then t.map Prod.fst else t.map Prod.fst ++ [k] := by
  induction t with
  | nil => simp [mapSet]
  | cons e' t ih =>
    obtain ⟨k', w⟩ := e'
    by_cases hk : k' = k
    · subst hk
      simp only [mapSet, if_true, List.map_cons, List.mem_cons, true_or]
    · have hk' : ¬ k = k' := fun e => hk e.symm
      simp only [mapSet, hk, if_false, List.map_cons, ih, List.mem_cons, hk', false_or]
      split
      · rfl
      · rfl

theorem nodupKeys_mapSet {V : Type} (t : Table V) (k : Str) (v : V) (h : NodupKeys t) :
    NodupKeys (mapSet t k v) := by
  unfold NodupKeys at *
  rw [keys_mapSet]
  split
  · exact h
  · rename_i hk
    rw [List.nodup_append]
    refine ⟨h, by simp, ?_⟩
    intro a ha hb
    simp at hb
    subst hb
    exact hk ha

theorem allPoints_mapSet (G : Table (List DataPoint)) (k : Str) (dp : DataPoint) :
    (allPoints (mapSet G k ((mapGet G k).getD [] ++ [dp]))).Perm (allPoints G ++ [dp]) := by
  induction G with
  | nil => simp [mapSet, mapGet, allPoints]
  | cons e G ih =>
    obtain ⟨k', w⟩ := e
    by_cases hk : k' = k
    · subst hk
      simp only [mapSet, mapGet, if_true, Option.getD_some, allPoints, List.map_cons,
        List.flatten_cons, List.append_assoc]
      exact List.Perm.append_left w List.perm_append_comm
    · simp only [mapSet, mapGet, hk, if_false, allPoints, List.map_cons, List.flatten_cons,
        List.append_assoc]
      exact List.Perm.append_left w ih

theorem groupInv_nil : GroupInv [] := by
  refine ⟨?_, ?_⟩
  · simp [NodupKeys]
  · intro e he; simp at he

theorem dataPointOf_Name (name : Str) (deltas : List Int) :
    (dataPointOf name deltas).Name = name := rfl

theorem dataPointOf_Values (name : Str) (deltas : List Int) :
    (dataPointOf name deltas).Values = deltas := rfl

theorem addSeries_inv (G : Table (List DataPoint)) (entry : Str × List Int)
    (h : GroupInv G) : GroupInv (addSeries G entry) := by
  unfold addSeries
  by_cases hz : allZero entry.2 = true
  · simp [hz, h]
  · simp only [hz, Bool.false_eq_true, if_false]
    obtain ⟨hnd, hall⟩ := h
    refine ⟨nodupKeys_mapSet _ _ _ hnd, ?_⟩
    intro e he
    rcases mem_mapSet _ _ _ _ he with he | he
    · subst he
      refine ⟨by simp, ?_⟩
      intro dp hdp
      rcases List.mem_append.1 hdp with hdp | hdp
      · cases hg : mapGet G (groupPrefix entry.1) with
        | none => simp [hg] at hdp
        | some old =>
          simp [hg] at hdp
          exact (hall _ (mapGet_some_mem _ _ _ hg)).2 dp hdp
      · simp at hdp
        subst hdp
        rfl
    · exact hall e he

theorem foldl_addSeries_inv (L : List (Str × List Int)) (G : Table (List DataPoint))
    (h : GroupInv G) : GroupInv (L.foldl addSeries G) := by
  induction L generalizing G with
  | nil => exact h
  | cons e L ih => exact ih _ (addSeries_inv G e h)

theorem addSeries_allPoints (G : Table (List DataPoint)) (entry : Str × List Int) :
    (allPoints (addSeries G entry)).Perm
      (allPoints G ++ if allZero entry.2 then [] else [dataPointOf entry.1 entry.2]) := by
  unfold addSeries
  by_cases hz : allZero entry.2 = true
  · simp [hz]
  · simp only [hz, Bool.false_eq_true, if_false]
    exact allPoints_mapSet _ _ _

theorem foldl_addSeries_allPoints (L : List (Str × List Int)) (G : Table (List DataPoint)) :
    (allPoints (L.foldl addSeries G)).Perm
      (allPoints G ++
        (L.filter (fun e => !allZero e.2)).map (fun e => dataPointOf e.1 e.2)) := by
  induction L generalizing G with
  | nil => simp
  | cons e L ih =>
    simp only [List.foldl_cons]
    refine (ih (addSeries G e)).trans ?_
    by_cases hz : allZero e.2 = true
    · have h1 := addSeries_allPoints G e
      simp only [hz, if_true, List.append_nil] at h1
      simp only [List.filter_cons, hz, Bool.not_true, Bool.false_eq_true, if_false]
      exact List.Perm.append_right _ h1
    · have h1 := addSeries_allPoints G e
      simp only [hz, Bool.false_eq_true, if_false] at h1
      have hz' : allZero e.2 = false := by simpa using hz
      simp only [List.filter_cons, hz', Bool.not_false, if_true, List.map_cons]
      refine (List.Perm.append_right _ h1).trans ?_
      simp

/-- The `DataPoint`s of `groupedData` are those of the series that are not all zero. -/
theorem allPoints_groupedDataOf (rt : Runtime) (t : Table (List Int)) :
    (allPoints (groupedDataOf rt t)).Perm
      ((t.filter (fun e => !allZero e.2)).map (fun e => dataPointOf e.1 e.2)) := by
  have h := foldl_addSeries_allPoints (rt.rangeOrder t) []
  simp only [allPoints, List.map_nil, List.flatten_nil, List.nil_append] at h
  unfold groupedDataOf allPoints
  refine h.trans ?_
  exact ((rt.rangeOrder_perm t).filter _).map _

theorem groupInv_groupedDataOf (rt : Runtime) (t : Table (List Int)) :
    GroupInv (groupedDataOf rt t) :=
  foldl_addSeries_inv _ _ groupInv_nil

theorem foldl_addGroup (rt : Runtime) (M : Table (List DataPoint)) (acc : List GroupedData) :
    M.foldl (addGroup rt) acc =
      acc ++ (M.filter (fun e => decide (e.2.length > 0))).map
        (fun e => { Prefix := e.1, DataPoints := rt.sortSlice lessName e.2 }) := by
  induction M generalizing acc with
  | nil => simp
  | cons e M ih =>
    simp only [List.foldl_cons, ih]
    by_cases hl : e.2.length > 0
    · simp [addGroup, hl, List.filter_cons]
    · simp [addGroup, hl, List.filter_cons]

/-- The groups of the output are the non-empty entries of `groupedData`, each with its
`DataPoint`s sorted. -/
theorem aggregate_perm (rt : Runtime) (t : Table (List Int)) :
    (aggregate rt t).Perm
      (((groupedDataOf rt t).filter (fun e => decide (e.2.length > 0))).map
        (fun e => { Prefix := e.1, DataPoints := rt.sortSlice lessName e.2 })) := by
  unfold aggregate
  refine (rt.sortSlice_perm _ _).trans ?_
  rw [foldl_addGroup]
  simp only [List.nil_append]
  exact ((rt.rangeOrder_perm _).filter _).map _

theorem mem_aggregate (rt : Runtime) (t : Table (List Int)) (g : GroupedData)
    (h : g ∈ aggregate rt t) :
    ∃ e ∈ groupedDataOf rt t, e.2 ≠ [] ∧ g.Prefix = e.1 ∧
      g.DataPoints = rt.sortSlice lessName e.2 := by
  have h' := (aggregate_perm rt t).mem_iff.1 h
  simp only [List.mem_map, List.mem_filter] at h'
  obtain ⟨e, ⟨he, hl⟩, rfl⟩ := h'
  refine ⟨e, he, ?_, rfl, rfl⟩
  intro h0
  simp [h0] at hl

theorem mem_allPoints (G : Table (List DataPoint)) (e : Str × List DataPoint)
    (dp : DataPoint) (he : e ∈ G) (hdp : dp ∈ e.2) : dp ∈ allPoints G := by
  unfold allPoints
  simp only [List.mem_flatten, List.mem_map]
  exact ⟨e.2, ⟨e, he, rfl⟩, hdp⟩

/-- Every `DataPoint` of the output comes from an entry of the series table that is
not all zero, and sits in the group of its name. -/
theorem dataPoint_origin (rt : Runtime) (t : Table (List Int)) (g : GroupedData)
    (dp : DataPoint) (hg : g ∈ aggregate rt t) (hdp : dp ∈ g.DataPoints) :
    ∃ e ∈ t, allZero e.2 = false ∧ dp = dataPointOf e.1 e.2 ∧
      g.Prefix = groupPrefix e.1 := by
  obtain ⟨e, he, _, hp, hd⟩ := mem_aggregate rt t g hg
  rw [hd] at hdp
  have hdp' : dp ∈ e.2 := (rt.sortSlice_perm lessName e.2).mem_iff.1 hdp
  have hin := mem_allPoints _ e dp he hdp'
  have hin' := (allPoints_groupedDataOf rt t).mem_iff.1 hin
  simp only [List.mem_map, List.mem_filter] at hin'
  obtain ⟨x, ⟨hx, hz⟩, rfl⟩ := hin'
  refine ⟨x, hx, by simpa using hz, rfl, ?_⟩
  rw [hp]
  exact ((groupInv_groupedDataOf rt t).2 e he).2 _ hdp' |>.symm

/-! ## The aggregator: series and statistics -/

theorem allZero_iff (l : List Int) : allZero l = true ↔ ∀ v ∈ l, v = 0 := by
  induction l with
  | nil => simp [allZero]
  | cons d l ih =>
    by_cases h : d = 0
    · simp [allZero, h, ih]
    · simp [allZero, h]

theorem allZero_false_iff (l : List Int) : allZero l = false ↔ ∃ v ∈ l, v ≠ 0 := by
  rw [← Bool.not_eq_true, allZero_iff]
  push_neg
  rfl

theorem nodupKeys_unique {V : Type} (t : Table V) (h : NodupKeys t) (k : Str) (v w : V)
    (hv : (k, v) ∈ t) (hw : (k, w) ∈ t) : v = w := by
  have := List.inj_on_of_nodup_map h hv hw rfl
  exact (Prod.mk.inj this).2

/-- The loop of lines 139-147 from any starting triple. -/
theorem maxMinSum_fold (l : List Int) (mx mn s : Int) :
    let r := l.foldl
      (fun (acc : Int × Int × Int) v =>
        (if v > acc.1 then v else acc.1,
         if v < acc.2.1 then v else acc.2.1,
         wrapInt (acc.2.2 + v)))
      (mx, mn, s)
    (r.1 = mx ∨ r.1 ∈ l) ∧ mx ≤ r.1 ∧ (∀ v ∈ l, v ≤ r.1) ∧
      (r.2.1 = mn ∨ r.2.1 ∈ l) ∧ r.2.1 ≤ mn ∧ (∀ v ∈ l, r.2.1 ≤ v) ∧
      wrapInt r.2.2 = wrapInt (s + l.sum) := by
  induction l generalizing mx mn s with
  | nil => simp
  | cons d l ih =>
    simp only [List.foldl_cons]
    have hM : mx ≤ (if d > mx then d else mx) ∧ d ≤ (if d > mx then d else mx) ∧
        ((if d > mx then d else mx) = mx ∨ (if d > mx then d else mx) = d) := by
      split <;> omega
    have hN : (if d < mn then d else mn) ≤ mn ∧ (if d < mn then d else mn) ≤ d ∧
        ((if d < mn then d else mn) = mn ∨ (if d < mn then d else mn) = d) := by
      split <;> omega
    generalize (if d > mx then d else mx) = M at hM ⊢
    generalize (if d < mn then d else mn) = N at hN ⊢
    have h := ih M N (wrapInt (s + d))
    simp only at h ⊢
    obtain ⟨h1, h2, h3, h4, h5, h6, h7⟩ := h
    refine ⟨?_, by omega, ?_, ?_, by omega, ?_, ?_⟩
    · rcases h1 with h1 | h1
      · rcases hM.2.2 with e | e
        · left; rw [h1, e]
        · right; rw [h1, e]; simp
      · right; exact List.mem_cons_of_mem _ h1
    · intro v hv
      rcases List.mem_cons.1 hv with hv | hv
      · subst hv; omega
      · exact h3 v hv
    · rcases h4 with h4 | h4
      · rcases hN.2.2 with e | e
        · left; rw [h4, e]
        · right; rw [h4, e]; simp
      · right; exact List.mem_cons_of_mem _ h4
    · intro v hv
      rcases List.mem_cons.1 hv with hv | hv
      · subst hv; omega
      · exact h6 v hv
    · rw [h7, wrapInt_add_left, List.sum_cons, add_assoc]

theorem foldl_sum_wrapped (l : List Int) (mx mn s : Int) (hs : wrapInt s = s) :
    wrapInt (l.foldl
      (fun (acc : Int × Int × Int) v =>
        (if v > acc.1 then v else acc.1,
         if v < acc.2.1 then v else acc.2.1,
         wrapInt (acc.2.2 + v)))
      (mx, mn, s)).2.2 =
    (l.foldl
      (fun (acc : Int × Int × Int) v =>
        (if v > acc.1 then v else acc.1,
         if v < acc.2.1 then v else acc.2.1,
         wrapInt (acc.2.2 + v)))
      (mx, mn, s)).2.2 := by
  induction l generalizing mx mn s with
  | nil => simpa using hs
  | cons d l ih =>
    simp only [List.foldl_cons]
    exact ih _ _ _ (wrapInt_idem _)

/-- The statistics of a non-empty series. -/
theorem maxMinSum_spec (l : List Int) (hl : l ≠ []) :
    (maxMinSum l).1 ∈ l ∧ (∀ v ∈ l, v ≤ (maxMinSum l).1) ∧
      (maxMinSum l).2.1 ∈ l ∧ (∀ v ∈ l, (maxMinSum l).2.1 ≤ v) ∧
      (maxMinSum l).2.2 = wrapInt l.sum := by
  obtain ⟨d, l', rfl⟩ := List.exists_cons_of_ne_nil hl
  have h := maxMinSum_fold (d :: l') d d 0
  have hs := foldl_sum_wrapped (d :: l') d d 0 (by decide)
  simp only at h
  obtain ⟨h1, _, h3, h4, _, h6, h7⟩ := h
  unfold maxMinSum
  simp only [List.headD_cons]
  refine ⟨?_, h3, ?_, h6, ?_⟩
  · rcases h1 with h1 | h1
    · rw [h1]; simp
    · exact h1
  · rcases h4 with h4 | h4
    · rw [h4]; simp
    · exact h4
  · rw [← hs, h7, zero_add]

/-- C7: no `DataPoint` of the output has a series of zeros only, and a variable whose
whole series is zero is the `Name` of no `DataPoint` in any group. -/
theorem allZero_series_excluded (rt : Runtime) (t : Table (List Int)) (hnd : NodupKeys t) :
    (∀ g ∈ aggregate rt t, ∀ dp ∈ g.DataPoints, ∃ v ∈ dp.Values, v ≠ 0) ∧
      (∀ (name : Str) (series : List Int), mapGet t name = some series →
        (∀ v ∈ series, v = 0) →
        ∀ g ∈ aggregate rt t, ∀ dp ∈ g.DataPoints, dp.Name ≠ name) := by
  refine ⟨?_, ?_⟩
  · intro g hg dp hdp
    obtain ⟨e, _, hz, rfl, _⟩ := dataPoint_origin rt t g dp hg hdp
    exact (allZero_false_iff _).1 hz
  · intro name series hget hzero g hg dp hdp hname
    obtain ⟨e, he, hz, rfl, _⟩ := dataPoint_origin rt t g dp hg hdp
    have hmem := mapGet_some_mem t name series hget
    obtain ⟨k, v⟩ := e
    have hk : k = name := hname
    subst hk
    have hv : v = series := nodupKeys_unique t hnd k v series he hmem
    subst hv
    have : allZero v = true := (allZero_iff v).2 hzero
    rw [this] at hz
    cases hz

/-- Witness of C7: a table with one all-zero series and one that is not. -/
theorem allZero_series_excluded_witness :
    (∀ g ∈ aggregate stdRuntime [("Com_select".data, [0, 0]), ("Uptime".data, [1, 1])],
        ∀ dp ∈ g.DataPoints, ∃ v ∈ dp.Values, v ≠ 0) ∧
      (∀ (name : Str) (series : List Int),
        mapGet [("Com_select".data, [0, 0]), ("Uptime".data, [1, 1])] name = some series →
        (∀ v ∈ series, v = 0) →
        ∀ g ∈ aggregate stdRuntime [("Com_select".data, [0, 0]), ("Uptime".data, [1, 1])],
          ∀ dp ∈ g.DataPoints, dp.Name ≠ name) :=
  allZero_series_excluded stdRuntime [("Com_select".data, [0, 0]), ("Uptime".data, [1, 1])]
    (by decide)

/-! ## The aggregator: order of the output -/

/-- Go's `<` on strings is the lexicographic order of lists of characters. -/
theorem strLess_iff (a b : Str) : strLess a b = true ↔ a < b := by
  induction a generalizing b with
  | nil =>
    cases b with
    | nil => simp [strLess]
    | cons d bs => simp [strLess, List.nil_lt_cons]
  | cons c as ih =>
    cases b with
    | nil =>
      simp only [strLess, Bool.false_eq_true, false_iff]
      exact List.Lex.not_nil_right _ _
    | cons d bs =>
      unfold strLess
      by_cases h1 : c < d
      · simp only [h1, if_true, true_iff]
        exact List.Lex.rel h1
      · by_cases h2 : d < c
        · simp only [h1, h2, if_true, if_false, Bool.false_eq_true, false_iff]
          intro h
          have h' : d :: bs < c :: as := List.Lex.rel h2
          exact lt_asymm h h'
        · have hcd : c = d := le_antisymm (not_lt.1 h2) (not_lt.1 h1)
          subst hcd
          simp only [h1, if_false, ih]
          exact (List.Lex.cons_iff (r := (· < ·))).symm

theorem strLess_irrefl (a : Str) : strLess a a = false := by
  rw [← Bool.not_eq_true, strLess_iff]
  exact lt_irrefl a

theorem strLess_trans (a b c : Str) (h1 : strLess a b = true) (h2 : strLess b c = true) :
    strLess a c = true := by
  rw [strLess_iff] at *
  exact lt_trans h1 h2

theorem strLess_total (a b : Str) (h1 : strLess a b = false) (h2 : strLess b a = false) :
    a = b := by
  rw [← Bool.not_eq_true, strLess_iff] at h1 h2
  exact le_antisymm (not_lt.1 h2) (not_lt.1 h1)

theorem strLess_negTrans (a b c : Str) (h1 : strLess a b = false)
    (h2 : strLess b c = false) : strLess a c = false := by
  rw [← Bool.not_eq_true, strLess_iff] at *
  exact not_lt.2 (le_trans (not_lt.1 h2) (not_lt.1 h1))

theorem strictWeak_lessName : StrictWeak lessName :=
  ⟨fun a => strLess_irrefl a.Name,
   fun a b c => strLess_trans a.Name b.Name c.Name,
   fun a b c => strLess_negTrans a.Name b.Name c.Name⟩

theorem strictWeak_lessPrefix : StrictWeak lessPrefix :=
  ⟨fun a => strLess_irrefl a.Prefix,
   fun a b c => strLess_trans a.Prefix b.Prefix c.Prefix,
   fun a b c => strLess_negTrans a.Prefix b.Prefix c.Prefix⟩

/-- A list sorted by a key whose values are pairwise distinct is strictly ascending. -/
theorem strictly_sorted {α : Type} (key : α → Str) (l : List α)
    (hs : l.Pairwise (fun a b => strLess (key b) (key a) = false))
    (hnd : (l.map key).Nodup) :
    l.Pairwise (fun a b => strLess (key a) (key b) = true) := by
  have hne : l.Pairwise (fun a b => key a ≠ key b) := List.pairwise_map.1 hnd
  refine (hs.and hne).imp ?_
  rintro a b ⟨h1, h2⟩
  cases h : strLess (key a) (key b) with
  | true => rfl
  | false => exact absurd (strLess_total _ _ h h1) h2

/-- The names of all `DataPoint`s of `groupedData` are pairwise distinct. -/
theorem allPoints_names_nodup (rt : Runtime) (t : Table (List Int)) (hnd : NodupKeys t) :
    ((allPoints (groupedDataOf rt t)).map DataPoint.Name).Nodup := by
  have hp := (allPoints_groupedDataOf rt t).map DataPoint.Name
  rw [hp.nodup_iff]
  have : ((t.filter (fun e => !allZero e.2)).map (fun e => dataPointOf e.1 e.2)).map
      DataPoint.Name = (t.filter (fun e => !allZero e.2)).map Prod.fst := by
    simp [List.map_map, Function.comp_def, dataPointOf_Name]
  rw [this]
  exact List.Nodup.sublist ((List.filter_sublist _).map _) hnd

theorem group_names_nodup (rt : Runtime) (t : Table (List Int)) (hnd : NodupKeys t)
    (e : Str × List DataPoint) (he : e ∈ groupedDataOf rt t) :
    (e.2.map DataPoint.Name).Nodup := by
  have hsub : List.Sublist e.2 (allPoints (groupedDataOf rt t)) := by
    unfold allPoints
    exact List.sublist_flatten_of_mem (List.mem_map.2 ⟨e, he, rfl⟩)
  exact List.Nodup.sublist (hsub.map _) (allPoints_names_nodup rt t hnd)

theorem aggregate_prefixes_nodup (rt : Runtime) (t : Table (List Int)) :
    ((aggregate rt t).map GroupedData.Prefix).Nodup := by
  have hp := (aggregate_perm rt t).map GroupedData.Prefix
  rw [hp.nodup_iff]
  have : (((groupedDataOf rt t).filter (fun e => decide (e.2.length > 0))).map
      (fun e => ({ Prefix := e.1, DataPoints := rt.sortSlice lessName e.2 } : GroupedData))).map
      GroupedData.Prefix =
      ((groupedDataOf rt t).filter (fun e => decide (e.2.length > 0))).map Prod.fst := by
    simp [List.map_map, Function.comp_def]
  rw [this]
  exact List.Nodup.sublist ((List.filter_sublist _).map _) (groupInv_groupedDataOf rt t).1

/-- C10: in the output the `DataPoint`s of every group are in strictly ascending
lexicographic order of `Name` and the groups are in strictly ascending lexicographic
order of `Prefix`; hence no two groups share a `Prefix` and no group lists a `Name`
twice. -/
theorem aggregate_sorted (rt : Runtime) (t : Table (List Int)) (hnd : NodupKeys t) :
    (aggregate rt t).Pairwise (fun g h => strLess g.Prefix h.Prefix = true) ∧
      (∀ g ∈ aggregate rt t,
        g.DataPoints.Pairwise (fun a b => strLess a.Name b.Name = true)) ∧
      ((aggregate rt t).map GroupedData.Prefix).Nodup ∧
      (∀ g ∈ aggregate rt t, (g.DataPoints.map DataPoint.Name).Nodup) := by
  have hnames : ∀ g ∈ aggregate rt t, (g.DataPoints.map DataPoint.Name).Nodup := by
    intro g hg
    obtain ⟨e, he, _, _, hd⟩ := mem_aggregate rt t g hg
    rw [hd, ((rt.sortSlice_perm lessName e.2).map DataPoint.Name).nodup_iff]
    exact group_names_nodup rt t hnd e he
  refine ⟨?_, ?_, aggregate_prefixes_nodup rt t, hnames⟩
  · refine strictly_sorted GroupedData.Prefix _ ?_ (aggregate_prefixes_nodup rt t)
    exact rt.sortSlice_sorted lessPrefix _ strictWeak_lessPrefix
  · intro g hg
    refine strictly_sorted DataPoint.Name _ ?_ (hnames g hg)
    obtain ⟨e, _, _, _, hd⟩ := mem_aggregate rt t g hg
    rw [hd]
    exact rt.sortSlice_sorted lessName _ strictWeak_lessName

/-- Witness of C10: three series in two groups, given out of order. -/
theorem aggregate_sorted_witness :
    (aggregate stdRuntime
        [("Uptime".data, [1]), ("Com_select".data, [2]), ("Com_insert".data, [3])]).Pairwise
        (fun g h => strLess g.Prefix h.Prefix = true) ∧
      (∀ g ∈ aggregate stdRuntime
          [("Uptime".data, [1]), ("Com_select".data, [2]), ("Com_insert".data, [3])],
        g.DataPoints.Pairwise (fun a b => strLess a.Name b.Name = true)) ∧
      ((aggregate stdRuntime
        [("Uptime".data, [1]), ("Com_select".data, [2]), ("Com_insert".data, [3])]).map
        GroupedData.Prefix).Nodup ∧
      (∀ g ∈ aggregate stdRuntime
          [("Uptime".data, [1]), ("Com_select".data, [2]), ("Com_insert".data, [3])],
        (g.DataPoints.map DataPoint.Name).Nodup) :=
  aggregate_sorted stdRuntime
    [("Uptime".data, [1]), ("Com_select".data, [2]), ("Com_insert".data, [3])] (by decide)

/-! ## float64: exact values -/

theorem log2Fuel_le (fuel n : Nat) (h1 : 1 ≤ n) (h2 : n ≤ fuel) :
    2 ^ log2Fuel fuel n ≤ n := by
  induction fuel generalizing n with
  | zero => omega
  | succ f ih =>
    unfold log2Fuel
    by_cases h : n < 2
    · simp [h]; omega
    · simp only [h, if_false]
      have := ih (n / 2) (by omega) (by omega)
      rw [pow_succ]
      omega

theorem natLog2_le (n : Nat) (h : 1 ≤ n) : 2 ^ natLog2 n ≤ n :=
  log2Fuel_le n n h (le_refl n)

theorem pow2_eq (e : ℤ) : pow2 e = (2 : ℚ) ^ e := by
  unfold pow2
  by_cases h : 0 ≤ e
  · obtain ⟨k, rfl⟩ := Int.eq_ofNat_of_zero_le h
    simp
  · simp only [h, if_false]
    obtain ⟨k, hk⟩ := Int.exists_eq_neg_ofNat (le_of_lt (not_le.1 h))
    subst hk
    simp

theorem pow2_pos (e : ℤ) : 0 < pow2 e := by
  rw [pow2_eq]
  positivity

theorem roundHalfEven_intCast (z : ℤ) : roundHalfEven (z : ℚ) = z := by
  unfold roundHalfEven
  have hf : Rat.floor (z : ℚ) = z := by
    show ⌊(z : ℚ)⌋ = z
    exact Int.floor_intCast z
  simp [hf]

/-- A value whose scaled significand is already an integer is not changed by
rounding. -/
theorem roundF64_of_scaled_int (q : ℚ) (z : ℤ)
    (h : q / pow2 (binExp q - 52) = (z : ℚ)) : roundF64 q = q := by
  unfold roundF64
  by_cases h0 : q = 0
  · simp [h0]
  · simp only [h0, if_false]
    rw [h, roundHalfEven_intCast, ← h]
    exact div_mul_cancel₀ q (ne_of_gt (pow2_pos _))


theorem binExp_intCast (n : ℤ) (hn : n ≠ 0) : binExp (n : ℚ) = (natLog2 n.natAbs : ℤ) := by
  have h1 : 1 ≤ n.natAbs := Nat.one_le_iff_ne_zero.2 (Int.natAbs_ne_zero.2 hn)
  have hle := natLog2_le n.natAbs h1
  have hlog1 : natLog2 1 = 0 := by decide
  unfold binExp
  simp only [Rat.num_intCast, Rat.den_intCast, hlog1, Nat.cast_zero, sub_zero]
  have hnot : ¬ |(n : ℚ)| < pow2 (natLog2 n.natAbs : ℤ) := by
    rw [pow2_eq, not_lt, zpow_natCast]
    have : |(n : ℚ)| = ((n.natAbs : ℕ) : ℚ) := by
      rw [Nat.cast_natAbs, Int.cast_abs]
    rw [this]
    exact_mod_cast hle
  simp [hnot]

/-- Integers of magnitude at most `2 ^ 53` are float64 values. -/
theorem roundF64_intCast (n : ℤ) (h : n.natAbs ≤ 2 ^ 53) : roundF64 (n : ℚ) = n := by
  by_cases hn : n = 0
  · subst hn
    simp [roundF64]
  have h1 : 1 ≤ n.natAbs := Nat.one_le_iff_ne_zero.2 (Int.natAbs_ne_zero.2 hn)
  have hle := natLog2_le n.natAbs h1
  have hL : natLog2 n.natAbs ≤ 53 := by
    by_contra hc
    have : 2 ^ 54 ≤ 2 ^ natLog2 n.natAbs := Nat.pow_le_pow_right (by decide) (by omega)
    omega
  by_cases h52 : natLog2 n.natAbs ≤ 52
  · obtain ⟨k, hk⟩ : ∃ k : ℕ, (natLog2 n.natAbs : ℤ) - 52 = -(k : ℤ) :=
      ⟨52 - natLog2 n.natAbs, by omega⟩
    apply roundF64_of_scaled_int (n : ℚ) (n * 2 ^ k)
    rw [binExp_intCast n hn, hk, pow2_eq, zpow_neg, zpow_natCast]
    push_cast
    field_simp
  · have hL53 : natLog2 n.natAbs = 53 := by omega
    rw [hL53] at hle
    have habs : n.natAbs = 2 ^ 53 := by omega
    obtain ⟨m, hm⟩ : ∃ m : ℤ, n = 2 * m := by
      rcases Int.natAbs_eq n with e | e
      · exact ⟨2 ^ 52, by rw [e, habs]; norm_num⟩
      · exact ⟨-2 ^ 52, by rw [e, habs]; norm_num⟩
    apply roundF64_of_scaled_int (n : ℚ) m
    rw [binExp_intCast n hn, hL53, pow2_eq]
    norm_num
    rw [hm]
    push_cast
    field_simp

/-! ## The aggregator: Max, Min and Avg -/

/-- C9, as amended: for every `DataPoint` of the output, `Max` is a value of the series
and no value exceeds it, `Min` is a value of the series and no value is below it, and
`Avg` is the `float64` quotient of the sum of the values, reduced to a 64-bit `int` and
converted to `float64`, by the converted number of values.  When the exact sum and the
count do not exceed `2 ^ 53` in magnitude, neither the sum nor the conversions lose
anything and `Avg` is the float64 nearest to the exact sum divided by the count. -/
theorem dataPoint_statistics (rt : Runtime) (t : Table (List Int)) (g : GroupedData)
    (dp : DataPoint) (hg : g ∈ aggregate rt t) (hdp : dp ∈ g.DataPoints) :
    (dp.Max ∈ dp.Values ∧ ∀ v ∈ dp.Values, v ≤ dp.Max) ∧
      (dp.Min ∈ dp.Values ∧ ∀ v ∈ dp.Values, dp.Min ≤ v) ∧
      dp.Avg =
        float64Div (float64OfInt (wrapInt dp.Values.sum)) (float64OfInt dp.Values.length) ∧
      (dp.Values.sum.natAbs ≤ 2 ^ 53 → dp.Values.length ≤ 2 ^ 53 →
        dp.Avg = roundF64 ((dp.Values.sum : ℚ) / (dp.Values.length : ℚ))) := by
  obtain ⟨e, _, hz, rfl, _⟩ := dataPoint_origin rt t g dp hg hdp
  obtain ⟨name, deltas⟩ := e
  have hne : deltas ≠ [] := by
    rintro rfl
    simp [allZero] at hz
  obtain ⟨h1, h2, h3, h4, h5⟩ := maxMinSum_spec deltas hne
  have havg : (dataPointOf name deltas).Avg =
      float64Div (float64OfInt (wrapInt deltas.sum)) (float64OfInt deltas.length) := by
    simp only [dataPointOf, h5]
  refine ⟨⟨h1, h2⟩, ⟨h3, h4⟩, havg, ?_⟩
  intro hs hl
  rw [havg]
  simp only [dataPointOf_Values] at hs hl ⊢
  have hw : wrapInt deltas.sum = deltas.sum := by
    apply wrapInt_of_range <;> omega
  have hlen : ((deltas.length : ℤ)).natAbs ≤ 2 ^ 53 := by
    simpa using hl
  rw [hw]
  unfold float64Div float64OfInt
  rw [roundF64_intCast _ hs, roundF64_intCast _ hlen]
  simp

/-- Witness of C9: the series 1, 2, 6 of `Uptime`. -/
theorem dataPoint_statistics_witness :
    ((6 : Int) ∈ [1, 2, 6] ∧ ∀ v ∈ ([1, 2, 6] : List Int), v ≤ 6) ∧
      ((1 : Int) ∈ [1, 2, 6] ∧ ∀ v ∈ ([1, 2, 6] : List Int), 1 ≤ v) ∧
      (3 : ℚ) =
        float64Div (float64OfInt (wrapInt ([1, 2, 6] : List Int).sum))
          (float64OfInt ([1, 2, 6] : List Int).length) ∧
      (([1, 2, 6] : List Int).sum.natAbs ≤ 2 ^ 53 → ([1, 2, 6] : List Int).length ≤ 2 ^ 53 →
        (3 : ℚ) = roundF64 ((([1, 2, 6] : List Int).sum : ℚ) /
          (([1, 2, 6] : List Int).length : ℚ))) :=
  dataPoint_statistics stdRuntime [("Uptime".data, [1, 2, 6])]
    ⟨"Uptime".data, [⟨"Uptime".data, [1, 2, 6], 6, 1, 3⟩]⟩
    ⟨"Uptime".data, [1, 2, 6], 6, 1, 3⟩ (by decide!) (by decide!)

/-- Counterexample to C9 as stated: the rows `9223372036854775807` and `1` of
`Threads_running` give the series of these two values, whose 64-bit sum wraps; `Avg`
is `-4611686018427387904`, which is not the sum of the values divided by their number
and lies below `Min`. -/
theorem dataPoint_statistics_counterexample :
    aggregate stdRuntime (processFiles
        [["| Threads_running | 9223372036854775807 |".data],
         ["| Threads_running | 1 |".data]] emptyTables).deltaMap =
      [{ Prefix := "Threads".data,
         DataPoints := [{ Name := "Threads_running".data,
                          Values := [9223372036854775807, 1],
                          Max := 9223372036854775807, Min := 1,
                          Avg := -4611686018427387904 }] }] ∧
      (-4611686018427387904 : ℚ) ≠
        ((([9223372036854775807, 1] : List Int).sum : Int) : ℚ) /
          ((([9223372036854775807, 1] : List Int).length : Nat) : ℚ) ∧
      (-4611686018427387904 : ℚ) < ((1 : Int) : ℚ) := by
  decide!

/-! ## Files in sequence -/

theorem processFile_append (A B : List Str) (tb : Tables) :
    processFile (A ++ B) tb = processFile B (processFile A tb) := by
  simp [processFile, List.foldl_append]

theorem processLine_sample (tb : Tables) (line name : Str) (value : Int)
    (h : parseLine line = some (name, value)) :
    processLine tb line = accumulate tb name value := by
  simp [processLine, h]

/-- C13: the previous-value table is shared by all files and never reset: processing
file `A` and then file `B` leaves both maps as processing one file with the lines of
`A` followed by those of `B` does.  Hence a row of `B` whose name (not a `Threads_`
name) was last seen in `A` with value `p` appends `value - p`. -/
theorem previous_values_shared (A B : List Str) (tb : Tables) :
    processFile B (processFile A tb) = processFile (A ++ B) tb ∧
      processFiles [A, B] tb = processFile (A ++ B) tb ∧
      (∀ (line name : Str) (value p : Int), parseLine line = some (name, value) →
        ¬ "Threads_".data <+: name →
        mapGet (processFile A tb).previousDataPoints name = some p →
        mapGet (processFile [line] (processFile A tb)).deltaMap name =
          some ((mapGet (processFile A tb).deltaMap name).getD [] ++
            [wrapInt (value - p)])) := by
  refine ⟨(processFile_append A B tb).symm, ?_, ?_⟩
  · rw [processFile_append]
    rfl
  · intro line name value p hl hT hp
    have hT' : ¬ HasPrefix name "Threads_".data = true :=
      fun h => hT ((hasPrefix_iff _ _).1 h)
    have : processFile [line] (processFile A tb) =
        accumulate (processFile A tb) name value := by
      simp [processFile, processLine_sample _ line name value hl]
    rw [this]
    exact accumulate_counter_some _ name value p hT' hp

theorem accumulate_seriesInv (tb : Tables) (name : Str) (value : Int)
    (h : NodupKeys tb.deltaMap ∧ SeriesNonempty tb.deltaMap) :
    NodupKeys (accumulate tb name value).deltaMap ∧
      SeriesNonempty (accumulate tb name value).deltaMap := by
  obtain ⟨hnd, hne⟩ := h
  unfold accumulate
  by_cases hp : HasPrefix name "Threads_".data = true
  · simp only [hp, if_true]
    refine ⟨nodupKeys_mapSet _ _ _ hnd, ?_⟩
    intro e he
    rcases mem_mapSet _ _ _ _ he with he | he
    · subst he; simp
    · exact hne e he
  · cases hq : mapGet tb.previousDataPoints name with
    | none => simpa [hp] using ⟨hnd, hne⟩
    | some p =>
      simp only [hp, Bool.false_eq_true, if_false]
      refine ⟨nodupKeys_mapSet _ _ _ hnd, ?_⟩
      intro e he
      rcases mem_mapSet _ _ _ _ he with he | he
      · subst he; simp
      · exact hne e he

theorem accumulateAll_seriesInv (ss : List (Str × Int)) (tb : Tables)
    (h : NodupKeys tb.deltaMap ∧ SeriesNonempty tb.deltaMap) :
    NodupKeys (accumulateAll ss tb).deltaMap ∧
      SeriesNonempty (accumulateAll ss tb).deltaMap := by
  induction ss generalizing tb with
  | nil => exact h
  | cons s ss ih => exact ih _ (accumulate_seriesInv tb s.1 s.2 h)

theorem processFiles_seriesInv (files : List (List Str)) :
    NodupKeys (processFiles files emptyTables).deltaMap ∧
      SeriesNonempty (processFiles files emptyTables).deltaMap := by
  rw [processFiles_eq_accumulateAll]
  apply accumulateAll_seriesInv
  refine ⟨by simp [emptyTables, NodupKeys], ?_⟩
  intro e he
  simp [emptyTables] at he

/-- C16: starting from empty maps, after any sequence of files every name that is a key
of the series table maps to a series with at least one value; so wherever the
aggregator reads `deltas[0]` the index is in bounds. -/
theorem series_nonempty (files : List (List Str)) (name : Str) (series : List Int)
    (h : mapGet (processFiles files emptyTables).deltaMap name = some series) :
    series ≠ [] ∧ ∃ d0, series.head? = some d0 ∧ series.headD 0 = d0 := by
  have hne : series ≠ [] :=
    (processFiles_seriesInv files).2 _ (mapGet_some_mem _ _ _ h)
  refine ⟨hne, ?_⟩
  obtain ⟨d, l, rfl⟩ := List.exists_cons_of_ne_nil hne
  exact ⟨d, rfl, rfl⟩

/-- Witness of C16: the series of `Uptime` after two files. -/
theorem series_nonempty_witness :
    ([4] : List Int) ≠ [] ∧
      ∃ d0, ([4] : List Int).head? = some d0 ∧ ([4] : List Int).headD 0 = d0 :=
  series_nonempty [["| Uptime | 5 |".data], ["| Uptime | 9 |".data]] "Uptime".data [4]
    (by decide)

/-! ## The aggregator: independence of the runtime -/

/-- Two lists that are strictly ascending in a key and have the same members are
equal. -/
theorem eq_of_strictly_sorted {α : Type} (key : α → Str) (l₁ l₂ : List α)
    (h₁ : l₁.Pairwise (fun a b => strLess (key a) (key b) = true))
    (h₂ : l₂.Pairwise (fun a b => strLess (key a) (key b) = true))
    (hm : ∀ x, x ∈ l₁ ↔ x ∈ l₂) : l₁ = l₂ := by
  have hirr : IsIrrefl α (fun a b => strLess (key a) (key b) = true) :=
    ⟨fun a h => by rw [strLess_irrefl] at h; cases h⟩
  have hanti : IsAntisymm α (fun a b => strLess (key a) (key b) = true) :=
    ⟨fun a b hab hba => by
      have := strLess_trans _ _ _ hab hba
      rw [strLess_irrefl] at this
      cases this⟩
  have hp : l₁.Perm l₂ := (List.perm_ext_iff_of_nodup h₁.nodup h₂.nodup).2 hm
  exact List.eq_of_perm_of_sorted hp h₁ h₂

theorem groups_strict (rt : Runtime) (t : Table (List Int)) :
    (aggregate rt t).Pairwise (fun g h => strLess g.Prefix h.Prefix = true) :=
  strictly_sorted GroupedData.Prefix _
    (rt.sortSlice_sorted lessPrefix _ strictWeak_lessPrefix) (aggregate_prefixes_nodup rt t)

theorem points_strict (rt : Runtime) (t : Table (List Int)) (hnd : NodupKeys t)
    (g : GroupedData) (hg : g ∈ aggregate rt t) :
    g.DataPoints.Pairwise (fun a b => strLess a.Name b.Name = true) := by
  obtain ⟨e, he, _, _, hd⟩ := mem_aggregate rt t g hg
  refine strictly_sorted DataPoint.Name _ ?_ ?_
  · rw [hd]
    exact rt.sortSlice_sorted lessName _ strictWeak_lessName
  · rw [hd, ((rt.sortSlice_perm lessName e.2).map DataPoint.Name).nodup_iff]
    exact group_names_nodup rt t hnd e he

/-- Every series that is not all zero has its `DataPoint` in the group of its name. -/
theorem exists_group (rt : Runtime) (t : Table (List Int)) (e : Str × List Int)
    (he : e ∈ t) (hz : allZero e.2 = false) :
    ∃ g ∈ aggregate rt t, g.Prefix = groupPrefix e.1 ∧
      dataPointOf e.1 e.2 ∈ g.DataPoints := by
  have hin : dataPointOf e.1 e.2 ∈ allPoints (groupedDataOf rt t) := by
    rw [(allPoints_groupedDataOf rt t).mem_iff]
    exact List.mem_map.2 ⟨e, List.mem_filter.2 ⟨he, by simp [hz]⟩, rfl⟩
  unfold allPoints at hin
  simp only [List.mem_flatten, List.mem_map] at hin
  obtain ⟨l, ⟨x, hx, rfl⟩, hdp⟩ := hin
  have hxne : x.2 ≠ [] := List.ne_nil_of_mem hdp
  refine ⟨{ Prefix := x.1, DataPoints := rt.sortSlice lessName x.2 }, ?_, ?_, ?_⟩
  · rw [(aggregate_perm rt t).mem_iff]
    refine List.mem_map.2 ⟨x, List.mem_filter.2 ⟨hx, ?_⟩, rfl⟩
    simpa using List.length_pos.2 hxne
  · exact (((groupInv_groupedDataOf rt t).2 x hx).2 _ hdp).symm
  · exact (rt.sortSlice_perm lessName x.2).mem_iff.2 hdp

theorem group_unique (rt : Runtime) (t : Table (List Int)) (g g' : GroupedData)
    (hg : g ∈ aggregate rt t) (hg' : g' ∈ aggregate rt t) (h : g.Prefix = g'.Prefix) :
    g = g' :=
  List.inj_on_of_nodup_map (aggregate_prefixes_nodup rt t) hg hg' h

/-- The `DataPoint`s of a group are those of the series, not all zero, whose names are
classified into the group. -/
theorem mem_points_iff (rt : Runtime) (t : Table (List Int)) (g : GroupedData)
    (hg : g ∈ aggregate rt t) (dp : DataPoint) :
    dp ∈ g.DataPoints ↔
      ∃ e ∈ t, allZero e.2 = false ∧ dp = dataPointOf e.1 e.2 ∧
        groupPrefix e.1 = g.Prefix := by
  constructor
  · intro hdp
    obtain ⟨e, he, hz, hd, hp⟩ := dataPoint_origin rt t g dp hg hdp
    exact ⟨e, he, hz, hd, hp.symm⟩
  · rintro ⟨e, he, hz, rfl, hp⟩
    obtain ⟨g', hg', hp', hin⟩ := exists_group rt t e he hz
    have : g' = g := group_unique rt t g' g hg' hg (hp'.trans hp)
    rw [← this]
    exact hin

theorem group_nonempty (rt : Runtime) (t : Table (List Int)) (g : GroupedData)
    (hg : g ∈ aggregate rt t) : g.DataPoints ≠ [] := by
  obtain ⟨e, _, hne, _, hd⟩ := mem_aggregate rt t g hg
  rw [hd]
  intro h0
  have := (rt.sortSlice_perm lessName e.2).length_eq
  rw [h0] at this
  exact hne (List.length_eq_zero.1 this.symm)

theorem aggregate_subset (rt₁ rt₂ : Runtime) (t : Table (List Int)) (hnd : NodupKeys t)
    (g : GroupedData) (hg : g ∈ aggregate rt₁ t) : g ∈ aggregate rt₂ t := by
  obtain ⟨dp, l, hl⟩ := List.exists_cons_of_ne_nil (group_nonempty rt₁ t g hg)
  have hdp : dp ∈ g.DataPoints := by rw [hl]; simp
  obtain ⟨e, he, hz, _, hp⟩ := dataPoint_origin rt₁ t g dp hg hdp
  obtain ⟨g₂, hg₂, hp₂, _⟩ := exists_group rt₂ t e he hz
  have hpre : g₂.Prefix = g.Prefix := hp₂.trans hp.symm
  have hpts : g₂.DataPoints = g.DataPoints := by
    apply eq_of_strictly_sorted DataPoint.Name _ _
      (points_strict rt₂ t hnd g₂ hg₂) (points_strict rt₁ t hnd g hg)
    intro x
    rw [mem_points_iff rt₂ t g₂ hg₂, mem_points_iff rt₁ t g hg, hpre]
  have : g₂ = g := by
    cases g₂; cases g
    simp only at hpre hpts
    rw [hpre, hpts]
  rw [← this]
  exact hg₂

/-- The output does not depend on the runtime. -/
theorem aggregate_runtime_irrelevant (rt₁ rt₂ : Runtime) (t : Table (List Int))
    (hnd : NodupKeys t) : aggregate rt₁ t = aggregate rt₂ t :=
  eq_of_strictly_sorted GroupedData.Prefix _ _ (groups_strict rt₁ t) (groups_strict rt₂ t)
    (fun g => ⟨aggregate_subset rt₁ rt₂ t hnd g, aggregate_subset rt₂ rt₁ t hnd g⟩)

/-- C11: grouping is deterministic.  Two runs over the same files in the same order
give the same `GroupedData`, whatever order `range` visits the two maps in and however
`sort.Slice` proceeds: the output is the same for any two runtimes, for every series
table with distinct keys and so for the table produced from any files. -/
theorem grouping_deterministic (rt₁ rt₂ : Runtime) (files : List (List Str)) :
    (∀ t : Table (List Int), NodupKeys t → aggregate rt₁ t = aggregate rt₂ t) ∧
      aggregate rt₁ (processFiles files emptyTables).deltaMap =
        aggregate rt₂ (processFiles files emptyTables).deltaMap :=
  ⟨fun t hnd => aggregate_runtime_irrelevant rt₁ rt₂ t hnd,
   aggregate_runtime_irrelevant rt₁ rt₂ _ (processFiles_seriesInv files).1⟩

/-- C12: the end-to-end example.  A first file with the row `| Bytes_sent | 100 |` and
a second with `| Bytes_sent | 250 |` give the series `[150]` for `Bytes_sent`, and the
aggregator produces one group `Bytes` with one `DataPoint`, whose `Max`, `Min` and
`Avg` are all 150. -/
theorem bytes_sent_example (rt : Runtime) :
    mapGet (processFiles [["| Bytes_sent | 100 |".data], ["| Bytes_sent | 250 |".data]]
        emptyTables).deltaMap "Bytes_sent".data = some [150] ∧
      aggregate rt (processFiles
          [["| Bytes_sent | 100 |".data], ["| Bytes_sent | 250 |".data]]
          emptyTables).deltaMap =
        [{ Prefix := "Bytes".data,
           DataPoints := [{ Name := "Bytes_sent".data, Values := [150],
                            Max := 150, Min := 150, Avg := 150 }] }] := by
  refine ⟨by decide, ?_⟩
  rw [aggregate_runtime_irrelevant rt stdRuntime _ (processFiles_seriesInv _).1]
  decide!

/-- C20: every group of the output has at least one `DataPoint` and every `DataPoint`
has at least one value; the guard `len(dataPoints) > 0` holds for every entry of
`groupedData`, so it discards nothing, and element 0 of the `DataPoints` of a group
exists, with a non-empty `Values`. -/
theorem groups_nonempty (rt : Runtime) (t : Table (List Int)) :
    (∀ g ∈ aggregate rt t, g.DataPoints ≠ [] ∧ ∀ dp ∈ g.DataPoints, dp.Values ≠ []) ∧
      (∀ e ∈ groupedDataOf rt t, e.2.length > 0) ∧
      (aggregate rt t).length = (groupedDataOf rt t).length ∧
      (∀ g ∈ aggregate rt t, ∃ dp0, g.DataPoints.head? = some dp0 ∧ dp0.Values ≠ []) := by
  have hvals : ∀ g ∈ aggregate rt t, ∀ dp ∈ g.DataPoints, dp.Values ≠ [] := by
    intro g hg dp hdp
    obtain ⟨e, _, hz, rfl, _⟩ := dataPoint_origin rt t g dp hg hdp
    rw [dataPointOf_Values]
    rintro h0
    rw [h0] at hz
    simp [allZero] at hz
  have hguard : ∀ e ∈ groupedDataOf rt t, e.2.length > 0 := fun e he =>
    List.length_pos.2 ((groupInv_groupedDataOf rt t).2 e he).1
  refine ⟨fun g hg => ⟨group_nonempty rt t g hg, hvals g hg⟩, hguard, ?_, ?_⟩
  · rw [(aggregate_perm rt t).length_eq, List.length_map]
    congr 1
    exact List.filter_eq_self.2 (fun e he => by simpa using hguard e he)
  · intro g hg
    obtain ⟨dp, l, hl⟩ := List.exists_cons_of_ne_nil (group_nonempty rt t g hg)
    refine ⟨dp, by rw [hl]; rfl, hvals g hg dp (by rw [hl]; simp)⟩

/-! ## The aggregator: nothing lost, nothing duplicated -/

theorem groupPrefix_isPrefix (name : Str) : groupPrefix name <+: name := by
  rw [groupPrefix_eq]
  split
  · assumption
  · split
    · assumption
    · split
      · exact List.takeWhile_prefix _
      · exact List.prefix_refl _

/-- In a list whose keys are pairwise distinct, filtering by the key of a member leaves
that member alone. -/
theorem filter_key_eq {α : Type} (key : α → Str) (l : List α) (x : α)
    (hnd : (l.map key).Nodup) (hx : x ∈ l) :
    l.filter (fun y => decide (key y = key x)) = [x] := by
  induction l with
  | nil => simp at hx
  | cons a l ih =>
    simp only [List.map_cons, List.nodup_cons, List.mem_map, not_exists, not_and] at hnd
    rcases List.mem_cons.1 hx with h | h
    · subst h
      have : l.filter (fun y => decide (key y = key x)) = [] := by
        rw [List.filter_eq_nil_iff]
        intro y hy
        simpa using hnd.1 y hy
      simp [List.filter_cons, this]
    · have hne : ¬ key a = key x := fun e => hnd.1 x h e.symm
      simp [List.filter_cons, hne, ih hnd.2 h]

/-- Filtering the `DataPoint`s of all groups when one group holds the single match. -/
theorem filter_flatMap_single (p : DataPoint → Bool) (gs : List GroupedData)
    (g : GroupedData) (x : DataPoint) (hnd : gs.Nodup) (hg : g ∈ gs)
    (hx : g.DataPoints.filter p = [x])
    (hothers : ∀ g' ∈ gs, g' ≠ g → g'.DataPoints.filter p = []) :
    (gs.flatMap GroupedData.DataPoints).filter p = [x] := by
  induction gs with
  | nil => simp at hg
  | cons h tl ih =>
    obtain ⟨hnot, hnd'⟩ := List.nodup_cons.1 hnd
    simp only [List.flatMap_cons, List.filter_append]
    by_cases hh : h = g
    · subst hh
      have : (tl.flatMap GroupedData.DataPoints).filter p = [] := by
        rw [List.filter_eq_nil_iff]
        intro a ha
        obtain ⟨g', hg', ha'⟩ := List.mem_flatMap.1 ha
        have hne : g' ≠ h := fun e => hnot (e ▸ hg')
        have := hothers g' (List.mem_cons_of_mem _ hg') hne
        rw [List.filter_eq_nil_iff] at this
        exact this a ha'
      rw [hx, this]
      rfl
    · have hg' : g ∈ tl := by
        rcases List.mem_cons.1 hg with e | e
        · exact absurd e.symm hh
        · exact e
      rw [hothers h (List.mem_cons_self _ _) hh,
        ih hnd' hg' (fun g' hg'' hne => hothers g' (List.mem_cons_of_mem _ hg'') hne)]
      rfl

/-- C18: aggregation neither loses nor duplicates a series.  For a table with distinct
keys and a name whose series has a non-zero value, the `DataPoint`s of all groups
contain exactly one with that `Name`; its `Values` are the series of the name; and any
group holding a `DataPoint` of that `Name` has the classification of the name as its
`Prefix`, which the `Name` starts with. -/
theorem series_kept_once (rt : Runtime) (t : Table (List Int)) (name : Str)
    (series : List Int) (hnd : NodupKeys t) (hget : mapGet t name = some series)
    (hnz : ∃ v ∈ series, v ≠ 0) :
    ((aggregate rt t).flatMap GroupedData.DataPoints).filter
        (fun dp => decide (dp.Name = name)) = [dataPointOf name series] ∧
      (dataPointOf name series).Values = series ∧
      (∀ g ∈ aggregate rt t, ∀ dp ∈ g.DataPoints, dp.Name = name →
        g.Prefix = groupPrefix name ∧ g.Prefix <+: dp.Name ∧ dp.Values = series) := by
  have hmem : (name, series) ∈ t := mapGet_some_mem t name series hget
  have hz : allZero series = false := (allZero_false_iff series).2 hnz
  obtain ⟨g, hg, hpre, hin⟩ := exists_group rt t (name, series) hmem hz
  have horigin : ∀ g' ∈ aggregate rt t, ∀ dp ∈ g'.DataPoints, dp.Name = name →
      dp = dataPointOf name series ∧ g'.Prefix = groupPrefix name := by
    intro g' hg' dp hdp hname
    obtain ⟨e, he, _, hd, hp⟩ := dataPoint_origin rt t g' dp hg' hdp
    obtain ⟨k, v⟩ := e
    have hk : k = name := by rw [hd] at hname; exact hname
    subst hk
    have hv : v = series := nodupKeys_unique t hnd k v series he hmem
    subst hv
    exact ⟨hd, hp⟩
  refine ⟨?_, rfl, ?_⟩
  · apply filter_flatMap_single _ _ g (dataPointOf name series)
      (List.Nodup.of_map _ (aggregate_prefixes_nodup rt t)) hg
    · have hndp : (g.DataPoints.map DataPoint.Name).Nodup :=
        List.pairwise_map.2 ((points_strict rt t hnd g hg).imp
          (fun h e => by rw [e, strLess_irrefl] at h; cases h))
      exact filter_key_eq DataPoint.Name g.DataPoints (dataPointOf name series) hndp hin
    · intro g' hg' hne
      rw [List.filter_eq_nil_iff]
      intro dp hdp hname
      have hname' : dp.Name = name := by simpa using hname
      have h2 := (horigin g' hg' dp hdp hname').2
      exact hne (group_unique rt t g' g hg' hg (h2.trans hpre.symm))
  · intro g' hg' dp hdp hname
    obtain ⟨hd, hp⟩ := horigin g' hg' dp hdp hname
    refine ⟨hp, ?_, ?_⟩
    · rw [hp, hname]
      exact groupPrefix_isPrefix name
    · rw [hd]
      rfl

/-- Witness of C18: `Uptime` beside an all-zero series. -/
theorem series_kept_once_witness :
    ((aggregate stdRuntime [("Com_select".data, [0, 0]), ("Uptime".data, [1, 1])]).flatMap
        GroupedData.DataPoints).filter (fun dp => decide (dp.Name = "Uptime".data)) =
        [dataPointOf "Uptime".data [1, 1]] ∧
      (dataPointOf "Uptime".data [1, 1]).Values = [1, 1] ∧
      (∀ g ∈ aggregate stdRuntime [("Com_select".data, [0, 0]), ("Uptime".data, [1, 1])],
        ∀ dp ∈ g.DataPoints, dp.Name = "Uptime".data →
          g.Prefix = groupPrefix "Uptime".data ∧ g.Prefix <+: dp.Name ∧
            dp.Values = [1, 1]) :=
  series_kept_once stdRuntime [("Com_select".data, [0, 0]), ("Uptime".data, [1, 1])]
    "Uptime".data [1, 1] (by decide) (by decide) ⟨1, by decide, by decide⟩

/-! ## Telescoping deltas -/

theorem accumulateAll_deltas (name : Str) (hp : ¬ HasPrefix name "Threads_".data = true)
    (ss : List (Str × Int)) (tb : Tables) :
    (mapGet (accumulateAll ss tb).deltaMap name).getD [] =
        (mapGet tb.deltaMap name).getD [] ++
          deltasFrom (mapGet tb.previousDataPoints name)
            ((ss.filter (fun s => decide (s.1 = name))).map Prod.snd) ∧
      mapGet (accumulateAll ss tb).previousDataPoints name =
        lastFrom (mapGet tb.previousDataPoints name)
          ((ss.filter (fun s => decide (s.1 = name))).map Prod.snd) := by
  induction ss generalizing tb with
  | nil => simp [accumulateAll, deltasFrom, lastFrom]
  | cons s ss ih =>
    obtain ⟨n, v⟩ := s
    have hstep : accumulateAll ((n, v) :: ss) tb = accumulateAll ss (accumulate tb n v) := rfl
    rw [hstep]
    obtain ⟨ih1, ih2⟩ := ih (accumulate tb n v)
    rw [ih1, ih2]
    by_cases hn : n = name
    · subst hn
      have hprev : mapGet (accumulate tb n v).previousDataPoints n = some v := by
        simp [accumulate_prev]
      cases hq : mapGet tb.previousDataPoints n with
      | none =>
        rw [hprev, accumulate_counter_none tb n v hp hq]
        simp [deltasFrom, lastFrom]
      | some p =>
        rw [hprev, accumulate_counter_some tb n v p hp hq]
        simp [deltasFrom, lastFrom]
    · have hn' : name ≠ n := fun e => hn e.symm
      have hprev : mapGet (accumulate tb n v).previousDataPoints name =
          mapGet tb.previousDataPoints name := by
        simp [accumulate_prev, hn']
      rw [hprev, accumulate_deltaMap_of_ne tb n v name hn']
      simp [hn]

theorem deltasFrom_sum_wrap (p : Int) (vs : List Int) :
    wrapInt (deltasFrom (some p) vs).sum = wrapInt (vs.getLastD p - p) := by
  induction vs generalizing p with
  | nil => simp [deltasFrom]
  | cons v vs ih =>
    simp only [deltasFrom, List.sum_cons, List.getLastD_cons]
    rw [add_comm, ← wrapInt_add_left, ih v, wrapInt_add_left, add_comm, wrapInt_add_left]
    congr 1
    ring

theorem deltasFrom_sum_exact (p : Int) (vs : List Int)
    (h : List.Chain (fun a b => -(2 ^ 63) ≤ b - a ∧ b - a < 2 ^ 63) p vs) :
    (deltasFrom (some p) vs).sum = vs.getLastD p - p := by
  induction vs generalizing p with
  | nil => simp [deltasFrom]
  | cons v vs ih =>
    obtain ⟨hpv, hrest⟩ := List.chain_cons.1 h
    simp only [deltasFrom, List.sum_cons, List.getLastD_cons]
    rw [ih v hrest, wrapInt_of_range _ hpv.1 hpv.2]
    ring

theorem lastFrom_cons (p : Option Int) (v : Int) (vs : List Int) :
    lastFrom p (v :: vs) = some (vs.getLastD v) := by
  induction vs generalizing p v with
  | nil => simp [lastFrom]
  | cons w ws ih =>
    simp only [lastFrom, List.getLastD_cons] at ih ⊢
    exact ih (some v) w

/-- C19, as amended: for files processed from empty maps and a name, not beginning
with `Threads_`, whose valid data rows carry the values `first :: rest`, the sum of the
series of the name is congruent modulo `2 ^ 64` to the last value minus the first
(both sides reduced to 64 bits are equal); the two are equal as integers whenever
every difference of consecutive values fits into 64 bits; and the previous-value
table holds the last value for the name. -/
theorem deltas_telescope (files : List (List Str)) (name : Str) (first : Int)
    (rest : List Int) (hT : ¬ "Threads_".data <+: name)
    (hrows : rawValues files name = first :: rest) :
    wrapInt ((mapGet (processFiles files emptyTables).deltaMap name).getD []).sum =
        wrapInt (rest.getLastD first - first) ∧
      (List.Chain (fun a b => -(2 ^ 63) ≤ b - a ∧ b - a < 2 ^ 63) first rest →
        ((mapGet (processFiles files emptyTables).deltaMap name).getD []).sum =
          rest.getLastD first - first) ∧
      mapGet (processFiles files emptyTables).previousDataPoints name =
        some (rest.getLastD first) := by
  have hp : ¬ HasPrefix name "Threads_".data = true :=
    fun h => hT ((hasPrefix_iff _ _).1 h)
  obtain ⟨h1, h2⟩ := accumulateAll_deltas name hp (samples files) emptyTables
  have hrows' : ((samples files).filter (fun s => decide (s.1 = name))).map Prod.snd =
      first :: rest := hrows
  have he1 : mapGet emptyTables.deltaMap name = none := rfl
  have he2 : mapGet emptyTables.previousDataPoints name = none := rfl
  rw [hrows', he1, he2] at h1
  rw [hrows', he2] at h2
  simp only [Option.getD_none, List.nil_append, deltasFrom] at h1
  rw [processFiles_eq_accumulateAll, h1, h2]
  exact ⟨deltasFrom_sum_wrap first rest, deltasFrom_sum_exact first rest,
    lastFrom_cons none first rest⟩

/-- Witness of C19: `Uptime` with the values 5, 9 and 4. -/
theorem deltas_telescope_witness :
    wrapInt ((mapGet (processFiles
          [["| Uptime | 5 |".data, "| Uptime | 9 |".data], ["| Uptime | 4 |".data]]
          emptyTables).deltaMap "Uptime".data).getD []).sum =
        wrapInt (([9, 4] : List Int).getLastD 5 - 5) ∧
      (List.Chain (fun a b => -(2 ^ 63) ≤ b - a ∧ b - a < 2 ^ 63) (5 : Int) [9, 4] →
        ((mapGet (processFiles
          [["| Uptime | 5 |".data, "| Uptime | 9 |".data], ["| Uptime | 4 |".data]]
          emptyTables).deltaMap "Uptime".data).getD []).sum =
          ([9, 4] : List Int).getLastD 5 - 5) ∧
      mapGet (processFiles
          [["| Uptime | 5 |".data, "| Uptime | 9 |".data], ["| Uptime | 4 |".data]]
          emptyTables).previousDataPoints "Uptime".data =
        some (([9, 4] : List Int).getLastD 5) :=
  deltas_telescope
    [["| Uptime | 5 |".data, "| Uptime | 9 |".data], ["| Uptime | 4 |".data]]
    "Uptime".data 5 [9, 4] (by decide) (by decide)

/-- Counterexample to C19 as stated: the rows `-9223372036854775808` and
`9223372036854775807` of a counter give the series `[-1]`, whose sum is not the last
value minus the first. -/
theorem deltas_telescope_counterexample :
    ¬ "Threads_".data <+: "Innodb_rows_read".data ∧
      rawValues [["| Innodb_rows_read | -9223372036854775808 |".data,
          "| Innodb_rows_read | 9223372036854775807 |".data]] "Innodb_rows_read".data =
        [-9223372036854775808, 9223372036854775807] ∧
      (mapGet (processFiles [["| Innodb_rows_read | -9223372036854775808 |".data,
          "| Innodb_rows_read | 9223372036854775807 |".data]]
          emptyTables).deltaMap "Innodb_rows_read".data).getD [] = [-1] ∧
      ((mapGet (processFiles [["| Innodb_rows_read | -9223372036854775808 |".data,
          "| Innodb_rows_read | 9223372036854775807 |".data]]
          emptyTables).deltaMap "Innodb_rows_read".data).getD []).sum ≠
        9223372036854775807 - (-9223372036854775808) := by
  decide

/-! ## formatAvg: precision -/

theorem digitChar_ne_point (d : Nat) : digitChar d ≠ '.' := by
  unfold digitChar
  split <;> decide

theorem natDigitsFuel_no_point (fuel n : Nat) (acc : Str) (h : ∀ c ∈ acc, c ≠ '.') :
    ∀ c ∈ natDigitsFuel fuel n acc, c ≠ '.' := by
  induction fuel generalizing n acc with
  | zero => simpa [natDigitsFuel] using h
  | succ f ih =>
    unfold natDigitsFuel
    split
    · intro c hc
      rcases List.mem_cons.1 hc with e | e
      · rw [e]; exact digitChar_ne_point n
      · exact h c e
    · apply ih
      intro c hc
      rcases List.mem_cons.1 hc with e | e
      · rw [e]; exact digitChar_ne_point _
      · exact h c e

theorem natToStr_no_point (n : Nat) : ∀ c ∈ natToStr n, c ≠ '.' :=
  natDigitsFuel_no_point _ _ [] (by simp)

theorem fixedDigits_length (p m : Nat) : (fixedDigits p m).length = p := by
  induction p generalizing m with
  | zero => rfl
  | succ p ih => simp [fixedDigits, ih]

theorem decimalPlaces_no_point (s : Str) (h : ∀ c ∈ s, c ≠ '.') : decimalPlaces s = 0 := by
  unfold decimalPlaces
  have : s.dropWhile (fun c => decide (c ≠ '.')) = [] := by
    rw [List.dropWhile_eq_nil_iff]
    intro c hc
    simpa using h c hc
  rw [this]

theorem decimalPlaces_point (pre frac : Str) (h : ∀ c ∈ pre, c ≠ '.') :
    decimalPlaces (pre ++ '.' :: frac) = frac.length := by
  unfold decimalPlaces
  have : (pre ++ '.' :: frac).dropWhile (fun c => decide (c ≠ '.')) = '.' :: frac := by
    induction pre with
    | nil => simp [List.dropWhile]
    | cons a l ih =>
      have ha : a ≠ '.' := h a (by simp)
      have hl : ∀ c ∈ l, c ≠ '.' := fun c hc => h c (List.mem_cons_of_mem _ hc)
      have hd : decide (a ≠ '.') = true := by simpa using ha
      rw [List.cons_append, List.dropWhile_cons, if_pos hd]
      exact ih hl
  rw [this]

/-- `%.{prec}f` renders exactly `prec` decimal places. -/
theorem decimalPlaces_formatFixed (prec : Nat) (x : ℚ) :
    decimalPlaces (formatFixed prec x) = prec := by
  unfold formatFixed
  simp only
  generalize (roundHalfEven (|x| * (10 : ℚ) ^ prec)).toNat = m
  have key : ∀ sign : Str, (∀ c ∈ sign, c ≠ '.') →
      decimalPlaces (sign ++ (natToStr (m / 10 ^ prec) ++
        (if prec = 0 then [] else '.' :: fixedDigits prec (m % 10 ^ prec)))) = prec := by
    intro sign hs
    have hpre : ∀ c ∈ sign ++ natToStr (m / 10 ^ prec), c ≠ '.' := by
      intro c hc
      rcases List.mem_append.1 hc with e | e
      · exact hs c e
      · exact natToStr_no_point _ c e
    by_cases hp : prec = 0
    · subst hp
      simp only [if_true, List.append_nil]
      exact decimalPlaces_no_point _ hpre
    · simp only [hp, if_false]
      rw [← List.append_assoc, decimalPlaces_point _ _ hpre, fixedDigits_length]
  by_cases hx : x < 0
  · simp only [hx, if_true]
    exact key ['-'] (by simp)
  · simp only [hx, if_false]
    exact key [] (by simp)

theorem decimalPlaces_formatAvg (avg : ℚ) :
    decimalPlaces (formatAvg avg) =
      if 1000 ≤ avg then 0 else if 100 ≤ avg then 1 else if 10 ≤ avg then 2 else 3 := by
  unfold formatAvg
  simp only [ge_iff_le]
  split
  · exact decimalPlaces_formatFixed 0 avg
  · split
    · exact decimalPlaces_formatFixed 1 avg
    · split
      · exact decimalPlaces_formatFixed 2 avg
      · exact decimalPlaces_formatFixed 3 avg

/-- C14, as amended: `formatAvg` chooses its precision from the average itself, not
from its magnitude: the rendered string has 0 decimal places when `avg` is at or above
1000, 1 when it is at or above 100 and below 1000, 2 when it is at or above 10 and
below 100, and 3 otherwise.  For an average that is not negative this is the rule by
magnitude; every negative average is rendered with 3 decimal places. -/
theorem formatAvg_precision (avg : ℚ) :
    decimalPlaces (formatAvg avg) =
        (if 1000 ≤ avg then 0 else if 100 ≤ avg then 1 else if 10 ≤ avg then 2 else 3) ∧
      (0 ≤ avg → decimalPlaces (formatAvg avg) =
        (if 1000 ≤ |avg| then 0 else if 100 ≤ |avg| then 1
          else if 10 ≤ |avg| then 2 else 3)) ∧
      (avg < 0 → decimalPlaces (formatAvg avg) = 3) := by
  refine ⟨decimalPlaces_formatAvg avg, ?_, ?_⟩
  · intro h
    rw [decimalPlaces_formatAvg, abs_of_nonneg h]
  · intro h
    rw [decimalPlaces_formatAvg]
    have h1 : ¬ (1000 : ℚ) ≤ avg := by linarith
    have h2 : ¬ (100 : ℚ) ≤ avg := by linarith
    have h3 : ¬ (10 : ℚ) ≤ avg := by linarith
    simp [h1, h2, h3]

/-- Counterexample to C14 as stated: the average `-1500.4` has a magnitude above 1000
and is rendered as `-1500.400`, with 3 decimal places. -/
theorem formatAvg_precision_counterexample :
    (1000 : ℚ) ≤ |float64Const (-15004 / 10)| ∧
      formatAvg (float64Const (-15004 / 10)) = "-1500.400".data ∧
      decimalPlaces (formatAvg (float64Const (-15004 / 10))) = 3 := by
  decide!

/-- C15, as amended: `formatAvg(1500.4) = "1500"`, `formatAvg(432.17) = "432.2"`,
`formatAvg(42.345) = "42.34"` and `formatAvg(3.14159) = "3.142"`. -/
theorem formatAvg_scenarios :
    formatAvg (float64Const (15004 / 10)) = "1500".data ∧
      formatAvg (float64Const (43217 / 100)) = "432.2".data ∧
      formatAvg (float64Const (42345 / 1000)) = "42.34".data ∧
      formatAvg (float64Const (314159 / 100000)) = "3.142".data := by
  decide!

/-- Counterexample to C15 as stated: the `float64` nearest to `42.345` lies below it,
so two decimal places give `42.34` and not `42.35`. -/
theorem formatAvg_scenarios_counterexample :
    float64Const (42345 / 1000) < 42345 / 1000 ∧
      formatAvg (float64Const (42345 / 1000)) ≠ "42.35".data := by
  decide!

/-! ## The file collector: order and errors -/

theorem runEntries_append (a b : List (Str × FsNode)) (tb : Tables) :
    runEntries (a ++ b) tb = (runEntries a tb).bind (runEntries b) := by
  induction a generalizing tb with
  | nil => rfl
  | cons e es ih =>
    simp only [List.cons_append, runEntries]
    split
    · rfl
    · split
      · exact ih _
      · exact ih _

mutual
theorem walk_eq_runEntries (path : Str) :
    ∀ (n : FsNode) (tb : Tables), walk path n tb = runEntries (listing path n) tb
  | .file none, tb => by
    by_cases h : HasSuffix path "-mysqladmin".data = true <;>
      simp [walk, listing, runEntries, isFault, matchedLines, h]
  | .file (some lines), tb => by
    by_cases h : HasSuffix path "-mysqladmin".data = true <;>
      simp [walk, listing, runEntries, isFault, matchedLines, h]
  | .lstatError, tb => by simp [walk, listing, runEntries, isFault]
  | .dirError, tb => by simp [walk, listing, runEntries, isFault]
  | .dir entries, tb => by
    simp only [walk, listing, runEntries, isFault, matchedLines]
    exact walkEntries_eq_runEntries path entries tb
theorem walkEntries_eq_runEntries (path : Str) :
    ∀ (f : FsForest) (tb : Tables),
      walkEntries path f tb = runEntries (listingEntries path f) tb
  | .nil, tb => rfl
  | .cons name node rest, tb => by
    simp only [walkEntries, listingEntries, runEntries_append]
    rw [walk_eq_runEntries (Join path name) node tb]
    cases runEntries (listing (Join path name) node) tb with
    | none => rfl
    | some tb' => exact walkEntries_eq_runEntries path rest tb'
end

theorem runEntries_no_fault (l : List (Str × FsNode)) (tb : Tables)
    (h : ∀ e ∈ l, isFault e = false) :
    runEntries l tb = some (processFiles (l.filterMap matchedLines) tb) := by
  induction l generalizing tb with
  | nil => rfl
  | cons e es ih =>
    have he : isFault e = false := h e (by simp)
    have hes : ∀ x ∈ es, isFault x = false := fun x hx => h x (List.mem_cons_of_mem _ hx)
    simp only [runEntries, he, Bool.false_eq_true, if_false]
    cases hm : matchedLines e with
    | none => simp [List.filterMap_cons, hm, ih tb hes]
    | some lines =>
      simp only [List.filterMap_cons, hm, ih _ hes]
      rfl

theorem runEntries_fault (l : List (Str × FsNode)) (tb : Tables)
    (h : ∃ e ∈ l, isFault e = true) : runEntries l tb = none := by
  induction l generalizing tb with
  | nil => obtain ⟨e, he, _⟩ := h; simp at he
  | cons e es ih =>
    by_cases he : isFault e = true
    · simp [runEntries, he]
    · have hes : ∃ x ∈ es, isFault x = true := by
        obtain ⟨x, hx, hf⟩ := h
        rcases List.mem_cons.1 hx with e' | e'
        · subst e'; exact absurd hf he
        · exact ⟨x, e', hf⟩
      simp only [runEntries, he, Bool.false_eq_true, if_false]
      split
      · exact ih _ hes
      · exact ih _ hes

theorem hasSuffix_join (dir name suf : Str) (h : '/' ∉ suf) :
    HasSuffix (Join dir name) suf = HasSuffix name suf := by
  unfold HasSuffix Join
  rw [Bool.eq_iff_iff, List.isSuffixOf_iff_suffix, List.isSuffixOf_iff_suffix]
  constructor
  · intro hs
    by_cases hl : suf.length ≤ name.length
    · have hn : name <:+ dir ++ '/' :: name :=
        (List.suffix_cons _ _).trans (List.suffix_append _ _)
      exact List.suffix_of_suffix_length_le hs hn hl
    · exfalso
      have h1 : ('/' :: name) <:+ dir ++ '/' :: name := List.suffix_append _ _
      have h2 : ('/' :: name) <:+ suf :=
        List.suffix_of_suffix_length_le h1 hs (by simp; omega)
      exact h (h2.subset (by simp))
  · intro hs
    exact hs.trans ((List.suffix_cons _ _).trans (List.suffix_append _ _))

theorem entriesToList_ofList (l : List (Str × FsNode)) :
    entriesToList (entriesOfList l) = l := by
  induction l with
  | nil => rfl
  | cons e l ih =>
    obtain ⟨name, node⟩ := e
    simp [entriesOfList, entriesToList, ih]

theorem entriesToList_readDirNames (f : FsForest) :
    entriesToList (readDirNames f) = (entriesToList f).insertionSort nameLe :=
  entriesToList_ofList _

theorem listingEntries_eq (path : Str) :
    ∀ f : FsForest, listingEntries path f =
      (entriesToList f).flatMap (fun e => listing (Join path e.1) e.2)
  | .nil => rfl
  | .cons name node rest => by
    simp [listingEntries, entriesToList, listingEntries_eq path rest]

theorem listingEntries_readDirNames (path : Str) (f : FsForest) :
    (listingEntries path (readDirNames f)).Perm (listingEntries path f) := by
  rw [listingEntries_eq, listingEntries_eq, entriesToList_readDirNames]
  exact (List.perm_insertionSort nameLe _).flatMap_right _

theorem leaves_append (a b : List (Str × FsNode)) :
    leaves (a ++ b) = leaves a ++ leaves b := by
  simp [leaves]

mutual
theorem sortTree_leaves :
    ∀ (n : FsNode) (path : Str),
      (leaves (listing path (sortTree n))).Perm (leaves (listing path n))
  | .file content, path => by simp [sortTree]
  | .lstatError, path => by simp [sortTree]
  | .dirError, path => by simp [sortTree]
  | .dir entries, path => by
    have h1 : leaves (listing path (sortTree (.dir entries))) =
        leaves (listingEntries path (readDirNames (sortBelow entries))) := by
      simp [sortTree, listing, leaves, hasEntries]
    have h2 : leaves (listing path (.dir entries)) = leaves (listingEntries path entries) := by
      simp [listing, leaves, hasEntries]
    rw [h1, h2]
    exact ((listingEntries_readDirNames path (sortBelow entries)).filter _).trans
      (sortBelow_leaves entries path)
theorem sortBelow_leaves :
    ∀ (f : FsForest) (path : Str),
      (leaves (listingEntries path (sortBelow f))).Perm (leaves (listingEntries path f))
  | .nil, path => by simp [sortBelow]
  | .cons name node rest, path => by
    simp only [sortBelow, listingEntries, leaves_append]
    exact (sortTree_leaves node (Join path name)).append (sortBelow_leaves rest path)
end

theorem lexOrderedEntries_iff :
    ∀ f : FsForest, LexOrderedEntries f ↔ ∀ e ∈ entriesToList f, LexOrdered e.2
  | .nil => by simp [LexOrderedEntries, entriesToList]
  | .cons name node rest => by
    simp only [LexOrderedEntries, entriesToList, List.mem_cons, forall_eq_or_imp,
      lexOrderedEntries_iff rest]

theorem nameLe_sorted (l : List (Str × FsNode)) :
    (l.insertionSort nameLe).Pairwise nameLe := by
  have htot : IsTotal (Str × FsNode) nameLe := by
    constructor
    intro a b
    unfold nameLe
    cases hab : strLess b.1 a.1 with
    | false => exact Or.inl rfl
    | true =>
      right
      cases hba : strLess a.1 b.1 with
      | false => rfl
      | true =>
        have := strLess_trans _ _ _ hab hba
        rw [strLess_irrefl] at this
        cases this
  have htrans : IsTrans (Str × FsNode) nameLe := by
    constructor
    intro a b c hab hbc
    exact strLess_negTrans _ _ _ hbc hab
  exact List.sorted_insertionSort nameLe l

theorem readDirNames_ordered (f : FsForest) :
    ((entriesToList (readDirNames f)).map Prod.fst).Pairwise
      (fun a b => strLess b a = false) := by
  rw [entriesToList_readDirNames]
  exact List.pairwise_map.2 (nameLe_sorted _)

mutual
theorem sortTree_ordered : ∀ n : FsNode, LexOrdered (sortTree n)
  | .file content => by simp [sortTree, LexOrdered]
  | .lstatError => by simp [sortTree, LexOrdered]
  | .dirError => by simp [sortTree, LexOrdered]
  | .dir entries => by
    simp only [sortTree, LexOrdered]
    refine ⟨readDirNames_ordered _, ?_⟩
    rw [lexOrderedEntries_iff, entriesToList_readDirNames]
    intro e he
    have he' : e ∈ entriesToList (sortBelow entries) :=
      (List.perm_insertionSort nameLe _).mem_iff.1 he
    exact (lexOrderedEntries_iff _).1 (sortBelow_ordered entries) e he'
theorem sortBelow_ordered : ∀ f : FsForest, LexOrderedEntries (sortBelow f)
  | .nil => by simp [sortBelow, LexOrderedEntries]
  | .cons name node rest => by
    simp only [sortBelow, LexOrderedEntries]
    exact ⟨sortTree_ordered node, sortBelow_ordered rest⟩
end

theorem isFault_leaf (e : Str × FsNode) (h : isFault e = true) : hasEntries e.2 = false := by
  obtain ⟨p, n⟩ := e
  cases n <;> simp_all [isFault, hasEntries]

theorem matchedLines_leaf (e : Str × FsNode) (lines : List Str)
    (h : matchedLines e = some lines) : hasEntries e.2 = false := by
  obtain ⟨p, n⟩ := e
  cases n <;> simp_all [matchedLines, hasEntries]

theorem fault_sortTree_iff (root : Str) (tree : FsNode) :
    (∃ e ∈ listing root (sortTree tree), isFault e = true) ↔
      ∃ e ∈ listing root tree, isFault e = true := by
  have hp := sortTree_leaves tree root
  constructor
  · rintro ⟨e, he, hf⟩
    have : e ∈ leaves (listing root (sortTree tree)) :=
      List.mem_filter.2 ⟨he, by simp [isFault_leaf e hf]⟩
    exact ⟨e, (List.mem_filter.1 (hp.mem_iff.1 this)).1, hf⟩
  · rintro ⟨e, he, hf⟩
    have : e ∈ leaves (listing root tree) :=
      List.mem_filter.2 ⟨he, by simp [isFault_leaf e hf]⟩
    exact ⟨e, (List.mem_filter.1 (hp.mem_iff.2 this)).1, hf⟩

theorem filterMap_matchedLines_leaves (l : List (Str × FsNode)) :
    (leaves l).filterMap matchedLines = l.filterMap matchedLines := by
  induction l with
  | nil => rfl
  | cons e l ih =>
    unfold leaves at ih ⊢
    by_cases h : hasEntries e.2 = true
    · have hm : matchedLines e = none := by
        cases hm : matchedLines e with
        | none => rfl
        | some lines =>
          have := matchedLines_leaf e lines hm
          rw [h] at this
          cases this
      simp [List.filter_cons, h, List.filterMap_cons, hm, ih]
    · have h' : hasEntries e.2 = false := by simpa using h
      simp only [List.filter_cons, h', Bool.not_false, if_true, List.filterMap_cons, ih]

/-- C17: the file collector.  `filepath.Walk` visits the entries of every directory in
the lexical order of their names, whatever order the directory holds them in, and goes
depth first.  When the walk meets no error, exactly the non-directory entries of the
tree whose path ends with `-mysqladmin` are given to `processFile`, each once, in that
order, the maps being handed from one file to the next; when the walk meets an error
anywhere (an entry that cannot be examined, a directory that cannot be read, a matched
file that cannot be opened or read) the run is aborted and there is no result.  The
path of an entry of a directory ends with `-mysqladmin` exactly when its name does.
In a directory that holds `b-mysqladmin` before `a-mysqladmin`, the file
`a-mysqladmin` is processed first. -/
theorem file_collector (root : Str) (tree : FsNode) (tb : Tables) :
    ((∀ e ∈ listing root tree, isFault e = false) →
        Walk root tree tb =
          some (processFiles ((listing root (sortTree tree)).filterMap matchedLines) tb)) ∧
      ((∃ e ∈ listing root tree, isFault e = true) → Walk root tree tb = none) ∧
      LexOrdered (sortTree tree) ∧
      (leaves (listing root (sortTree tree))).Perm (leaves (listing root tree)) ∧
      ((listing root (sortTree tree)).filterMap matchedLines).Perm
        ((listing root tree).filterMap matchedLines) ∧
      (∀ (e : Str × FsNode) (lines : List Str), matchedLines e = some lines ↔
        (e.2 = FsNode.file (some lines) ∧ "-mysqladmin".data <:+ e.1)) ∧
      (∀ dir name : Str,
        HasSuffix (Join dir name) "-mysqladmin".data = HasSuffix name "-mysqladmin".data) ∧
      Walk "snapshots".data
          (.dir (.cons "b-mysqladmin".data (.file (some ["| Uptime | 9 |".data]))
            (.cons "a-mysqladmin".data (.file (some ["| Uptime | 5 |".data])) .nil)))
          emptyTables =
        some ⟨[("Uptime".data, 9)], [("Uptime".data, [4])]⟩ := by
  refine ⟨?_, ?_, sortTree_ordered tree, sortTree_leaves tree root, ?_, ?_, ?_, by decide⟩
  · intro h
    unfold Walk
    rw [walk_eq_runEntries]
    apply runEntries_no_fault
    intro e he
    cases hf : isFault e with
    | false => rfl
    | true =>
      obtain ⟨e', he', hf'⟩ := (fault_sortTree_iff root tree).1 ⟨e, he, hf⟩
      rw [h e' he'] at hf'
      cases hf'
  · intro h
    unfold Walk
    rw [walk_eq_runEntries]
    exact runEntries_fault _ tb ((fault_sortTree_iff root tree).2 h)
  · rw [← filterMap_matchedLines_leaves (listing root (sortTree tree)),
      ← filterMap_matchedLines_leaves (listing root tree)]
    exact (sortTree_leaves tree root).filterMap _
  · intro e lines
    obtain ⟨p, n⟩ := e
    have hs : HasSuffix p "-mysqladmin".data = true ↔ "-mysqladmin".data <:+ p := by
      simp [HasSuffix]
    cases n with
    | file content =>
      cases content with
      | none => simp [matchedLines]
      | some l =>
        by_cases h : HasSuffix p "-mysqladmin".data = true
        · simp [matchedLines, h, hs.1 h]
        · have h' : ¬ "-mysqladmin".data <:+ p := fun x => h (hs.2 x)
          simp [matchedLines, h, h']
    | lstatError => simp [matchedLines]
    | dirError => simp [matchedLines]
    | dir entries => simp [matchedLines]
  · intro dir name
    exact hasSuffix_join dir name _ (by decide)

end PtStalk
